import Mathlib

/-!
Verification of the treatment_rag ingestion and query pipelines.

The Python sources (`rag_modules/data_preparation.py`,
`rag_modules/generation_integration.py`, `main.py`) are shallowly embedded
here.  Python strings are modelled as `List Char` (Python `len`, slicing and
`in` operate on code points, exactly as `List Char` does); dictionaries whose
iteration order matters are modelled as association lists in insertion order;
`None`-able values become `Option`; exceptions become `Except` or an explicit
failure oracle.  Regular-expression operations from the source are embedded as
recursive scanners implementing the same match semantics (leftmost,
non-overlapping, with the greediness of the concrete pattern); character
classes `[a-z]`, `[A-Z]`, `\s`, `\d` are the ASCII classes Python uses for
these patterns.
-/

namespace TreatmentRag

/-- Python text, one entry per code point. -/
abbrev Text := List Char

/-- The ASCII whitespace characters recognised by Python `str.strip()` and by
the regex class `\s` (all inputs relevant here are ASCII or CJK text, where
Python's additional Unicode whitespace set never occurs). -/
def pyIsSpace (c : Char) : Bool :=
  c = ' ' || c = '\t' || c = '\n' || c = '\r' || c = '\x0b' || c = '\x0c'

/-- ASCII lower-casing of one character, as Python `str.lower()` acts on the
ASCII range (the backend labels `list`/`detail`/`general` are ASCII). -/
def asciiLowerChar (c : Char) : Char :=
  if 'A' ≤ c && c ≤ 'Z' then Char.ofNat (c.toNat + 32) else c

/-- Python `str.lower()`. -/
def pyLower (s : Text) : Text := s.map asciiLowerChar

/-- Leading-whitespace removal, the left half of Python `str.strip()`. -/
def lstripWS (s : Text) : Text := s.dropWhile pyIsSpace

/-- Trailing-whitespace removal, the right half of Python `str.strip()`. -/
def rstripWS : Text → Text
  | [] => []
  | c :: rest =>
    match rstripWS rest with
    | [] => if pyIsSpace c then [] else [c]
    | r :: rs => c :: r :: rs

/-- Python `str.strip()`. -/
def pyStrip (s : Text) : Text := rstripWS (lstripWS s)

/-- `GenerationIntegrationModule.query_router`
(`generation_integration.py:238-244`): the post-processing applied to the raw
backend response.  The backend call itself is an external collaborator, so the
raw response is the input here: it is stripped and lower-cased, valid labels
pass through and every other response falls back to `general`. -/
def query_router_postprocess (response : Text) : Text :=
  let result := pyLower (pyStrip response)
  if result = "list".toList ∨ result = "detail".toList ∨ result = "general".toList then
    result
  else
    "general".toList

/-- Python substring containment (`needle in hay`): true iff `needle` occurs
contiguously in `hay`. -/
def isSub (needle : Text) : Text → Bool
  | [] => needle.isEmpty
  | c :: t => needle.isPrefixOf (c :: t) || isSub needle t

/-- `DataPreparationModule.CATEGORY_MAPPING` (`data_preparation.py:21-28`), an
insertion-ordered dictionary from path keywords to category labels. -/
def CATEGORY_MAPPING : List (String × String) :=
  [("fracture", "骨折"), ("hemangioma", "血管瘤"), ("infection", "感染"),
   ("intervertebral", "椎间盘问题"), ("malignant_tumor", "恶性肿瘤"),
   ("others", "其他类型疾病")]

/-- `DataPreparationModule.CATEGORY_LABELS` (`data_preparation.py:29`):
`list(set(CATEGORY_MAPPING.values()))`.  The six labels are pairwise distinct,
so the set has exactly these elements; Python's `set` iteration order is
interpreter-dependent, so the order of this list is one possible run's order
and every claim about the scan is also proved for an arbitrary ordering. -/
def CATEGORY_LABELS : List String := CATEGORY_MAPPING.map Prod.snd

/-- The scanning loop of `RecipeRAGSystem._extract_filters_from_query`
(`main.py:245-249`): first label that occurs as a literal substring of the
question, if any. -/
def extract_filters_loop (labels : List String) (query : Text) : Option String :=
  match labels with
  | [] => none
  | cat :: rest => if isSub cat.data query then some cat else extract_filters_loop rest query

/-- `RecipeRAGSystem._extract_filters_from_query` (`main.py:239-251`), with the
label list it scans made explicit; the resulting filter dictionary is the
association list of its entries. -/
def extract_filters_from_query (labels : List String) (query : Text) : List (String × String) :=
  match extract_filters_loop labels query with
  | some cat => [("category", cat)]
  | none => []

/-- A langchain `Document` as the generation/rendering code reads it: the page
content plus the metadata keys accessed by `_build_context` and the parent
resolvers; `none` models an absent dictionary key. -/
structure RagDocument where
  pageContent : Text
  caseReportId : Option Text := none
  category : Option Text := none
  parentId : Option Text := none
deriving DecidableEq

/-- One document block of `GenerationIntegrationModule._build_context`
(`generation_integration.py:377-386`): index marker, optional case-report id,
optional category, then the full text, newline-terminated. -/
def contextBlock (i : Nat) (doc : RagDocument) : Text :=
  let meta1 := "【治疗方案 ".toList ++ (Nat.repr i).toList ++ "】".toList
  let meta2 := match doc.caseReportId with
    | some cid => meta1 ++ " ".toList ++ cid
    | none => meta1
  let meta3 := match doc.category with
    | some cat => meta2 ++ " | 分类: ".toList ++ cat
    | none => meta2
  meta3 ++ "\n".toList ++ doc.pageContent ++ "\n".toList

/-- The greedy packing loop of `_build_context`
(`generation_integration.py:374-393`): `i` is the 1-based enumeration index and
`curLen` the accumulated `current_length`; a block that would push the total
over `maxLength` stops the loop (`break`), it is never truncated. -/
def contextParts (maxLength : Nat) : Nat → Nat → List RagDocument → List Text
  | _, _, [] => []
  | i, curLen, doc :: rest =>
    let docT := contextBlock i doc
    if curLen + docT.length > maxLength then []
    else docT :: contextParts maxLength (i + 1) (curLen + docT.length) rest

/-- The fixed visual separator prefixed to every non-empty context
(`generation_integration.py:395`): a newline followed by fifty `=`. -/
def contextSeparator : Text := '\n' :: List.replicate 50 '='

/-- The placeholder returned for an empty document list
(`generation_integration.py:371-372`). -/
def noInfoPlaceholder : Text := "暂无相关疾病信息。".toList

/-- `GenerationIntegrationModule._build_context`
(`generation_integration.py:360-395`); the default character budget is 2000. -/
def build_context (docs : List RagDocument) (maxLength : Nat) : Text :=
  if docs = [] then noInfoPlaceholder
  else contextSeparator ++ List.intercalate "\n".toList (contextParts maxLength 1 0 docs)

/-- The blocks `_build_context` would format for the documents, starting at
enumeration index `i` (used to state the greedy-packing property). -/
def blockList : Nat → List RagDocument → List Text
  | _, [] => []
  | i, doc :: rest => contextBlock i doc :: blockList (i + 1) rest

/-- Total character count of a list of blocks. -/
def textsLen (ts : List Text) : Nat := (ts.map List.length).sum

/-- A document whose block in `_build_context` is exactly 900 characters long:
the index-marker line contributes 10 characters, the content 890. -/
def c3doc (c : Char) : RagDocument := { pageContent := List.replicate 890 c }

/-- The three 900-character blocks of the context-composer test case. -/
def c3docs : List RagDocument := [c3doc 'a', c3doc 'b', c3doc 'c']

/-- The parent identifiers referenced by the retrieved chunks, in input order
and with multiplicity.  Mirrors the loop of
`DataPreparationModule.get_parent_documents` (`data_preparation.py:330-334`):
a missing `parent_id` key or a falsy (empty) value is skipped by
`if parent_id:`. -/
def referencedParentIds (child_chunks : List RagDocument) : List Text :=
  child_chunks.filterMap (fun c =>
    match c.parentId with
    | some pid => if pid = [] then none else some pid
    | none => none)

/-- First-occurrence deduplication with an explicit seen-set accumulator;
models the key insertion order of the `parent_relevance` dictionary. -/
def dedupFirstAux (seen : List Text) : List Text → List Text
  | [] => []
  | x :: rest =>
    if x ∈ seen then dedupFirstAux seen rest
    else x :: dedupFirstAux (x :: seen) rest

/-- Keys of `parent_relevance` in insertion order, which is first-encounter
order of the parent ids in the input chunk list. -/
def dedupFirst (l : List Text) : List Text := dedupFirstAux [] l

/-- Relevance count of one parent id: how many input chunks reference it
(`parent_relevance[parent_id] += 1` at `data_preparation.py:334`). -/
def relevanceCount (child_chunks : List RagDocument) (pid : Text) : Nat :=
  (referencedParentIds child_chunks).count pid

/-- One step of a stable descending insertion sort: `x` is placed before the
first element whose key does not exceed `x`'s key, so earlier input elements
stay before equal-keyed later ones. -/
def sortInsert (key : Text → Nat) (x : Text) : List Text → List Text
  | [] => [x]
  | y :: ys => if key y ≤ key x then x :: y :: ys else y :: sortInsert key x ys

/-- Stable sort by descending key; models Python's stable
`sorted(keys, key=relevance, reverse=True)` (`data_preparation.py:344-346`):
both produce the unique ordering that is descending in the key and preserves
the original order of equal-keyed elements. -/
def sortDesc (key : Text → Nat) : List Text → List Text
  | [] => []
  | x :: xs => sortInsert key x (sortDesc key xs)

/-- `DataPreparationModule.get_parent_documents`
(`data_preparation.py:315-363`): count relevance per referenced parent id,
stably sort the distinct ids by descending count, and resolve each id to the
first matching document (the cached linear scan of lines 337-341). -/
def flat_get_parent_documents (documents : List RagDocument)
    (child_chunks : List RagDocument) : List RagDocument :=
  let ids := dedupFirst (referencedParentIds child_chunks)
  let sortedIds := sortDesc (relevanceCount child_chunks) ids
  sortedIds.filterMap (fun pid => documents.find? (fun d => d.parentId = some pid))

/-- The `parent_map` dict comprehension of
`GuidelineDataPreparationModule.get_parent_documents`
(`data_preparation.py:582`): for duplicate parent ids a later document
overwrites an earlier one, hence the reversed search. -/
def guidelineParentLookup (documents : List RagDocument) (pid : Text) : Option RagDocument :=
  documents.reverse.find? (fun d => d.parentId = some pid)

/-- The scanning loop of `GuidelineDataPreparationModule.get_parent_documents`
(`data_preparation.py:584-590`): each chunk's parent id is resolved in input
order, skipped when falsy, already seen, or unresolvable; note there is no
relevance counting or reordering here. -/
def guideline_resolve_loop (documents : List RagDocument) (seen : List Text) :
    List RagDocument → List RagDocument
  | [] => []
  | chunk :: rest =>
    match chunk.parentId with
    | none => guideline_resolve_loop documents seen rest
    | some pid =>
      if pid = [] then guideline_resolve_loop documents seen rest
      else if pid ∈ seen then guideline_resolve_loop documents seen rest
      else
        match guidelineParentLookup documents pid with
        | some doc => doc :: guideline_resolve_loop documents (pid :: seen) rest
        | none => guideline_resolve_loop documents seen rest

/-- `GuidelineDataPreparationModule.get_parent_documents`
(`data_preparation.py:573-593`). -/
def guideline_get_parent_documents (documents : List RagDocument)
    (child_chunks : List RagDocument) : List RagDocument :=
  guideline_resolve_loop documents [] child_chunks

/-- The module slots of `RecipeRAGSystem` that `ask_question` checks before
answering (`main.py:157`); a `false` entry models a module still set to
`None`, so `all([...])` fails. -/
structure RAGSystemState where
  caseReportRetrievalPresent : Bool
  guidelineRetrievalPresent : Bool
  generationPresent : Bool
  documents : List RagDocument

/-- The error message of the `ValueError` raised by `ask_question` when the
knowledge base has not been built (`main.py:158`). -/
def noKnowledgeBaseMsg : Text := "请先构建知识库".toList

/-- The fixed user-facing message returned when retrieval matches nothing
(`main.py:206`). -/
def notFoundMsg : Text := "抱歉，没有找到相关的疾病信息。请尝试其他疾病名称或关键词。".toList

/-- `RecipeRAGSystem.ask_question` (`main.py:146-237`), with its external
collaborators abstracted: `retrievedChunks` is what the retrieval module
returned for the (possibly rewritten) query, and `generate` stands for the
route- and stream-dependent generation call of step 5 applied to the resolved
parent documents.  A raised `ValueError` is `Except.error`; every normal
return is `Except.ok`. -/
def ask_question (st : RAGSystemState) (retrievedChunks : List RagDocument)
    (generate : List RagDocument → Text) : Except Text Text :=
  if ¬(st.caseReportRetrievalPresent && st.generationPresent && st.guidelineRetrievalPresent) then
    Except.error noKnowledgeBaseMsg
  else if retrievedChunks = [] then
    Except.ok notFoundMsg
  else
    Except.ok (generate (flat_get_parent_documents st.documents retrievedChunks))

/-- ASCII lower-case letter, the regex class `[a-z]`. -/
def asciiIsLower (c : Char) : Bool := 'a' ≤ c && c ≤ 'z'

/-- ASCII upper-case letter, the regex class `[A-Z]`. -/
def asciiIsUpper (c : Char) : Bool := 'A' ≤ c && c ≤ 'Z'

/-- ASCII digit, the regex class `\d` in the patterns used here. -/
def asciiIsDigit (c : Char) : Bool := '0' ≤ c && c ≤ '9'

/-- `GuidelineDataPreparationModule._camel_case_split`
(`data_preparation.py:404-411`).  The regex
`.+?(?:(?<=[a-z])(?=[A-Z])|(?<=[A-Z])(?=[A-Z][a-z])|$)` cuts the identifier at
every position whose left neighbour is lower-case and right neighbour
upper-case, or whose left neighbour is upper-case and is followed by an
upper-then-lower pair; joining the pieces with spaces is the same as inserting
a space at each such boundary. -/
def camel_case_split : Text → Text
  | [] => []
  | [a] => [a]
  | a :: b :: rest =>
    let nextLower := match rest with
      | c :: _ => asciiIsLower c
      | [] => false
    if asciiIsLower a && asciiIsUpper b || (asciiIsUpper a && asciiIsUpper b && nextLower) then
      a :: ' ' :: camel_case_split (b :: rest)
    else
      a :: camel_case_split (b :: rest)

/-- Python `s.split('_', 1)` when `'_' in s`: the segment before the first
underscore and everything after it; `none` when no underscore occurs. -/
def splitFirstUnderscore : Text → Option (Text × Text)
  | [] => none
  | c :: rest =>
    if c = '_' then some ([], rest)
    else (splitFirstUnderscore rest).map (fun p => (c :: p.1, p.2))

/-- Python `s.replace('_', ' ')`. -/
def underscoresToSpaces (s : Text) : Text := s.map (fun c => if c = '_' then ' ' else c)

/-- One attempted match of `re.search(r'part(\d+)', ..., re.IGNORECASE)` at the
start of `s`: the case-insensitive literal `part` followed by at least one
digit; the capture is the maximal digit run. -/
def matchPartAt (s : Text) : Option Text :=
  match s with
  | p :: a :: r :: t :: rest =>
    if asciiLowerChar p = 'p' && asciiLowerChar a = 'a' && asciiLowerChar r = 'r'
        && asciiLowerChar t = 't' then
      let ds := rest.takeWhile asciiIsDigit
      if ds = [] then none else some ds
    else none
  | _ => none

/-- `re.search(r'part(\d+)', file_name, re.IGNORECASE)` at
`data_preparation.py:443`: the captured digits of the leftmost match. -/
def searchPartNumber : Text → Option Text
  | [] => none
  | c :: rest =>
    match matchPartAt (c :: rest) with
    | some ds => some ds
    | none => searchPartNumber rest

/-- Python `int` on the non-empty digit string captured by `(\d+)`. -/
def digitsToNat (ds : Text) : Nat :=
  ds.foldl (fun n c => n * 10 + (c.toNat - '0'.toNat)) 0

/-- The metadata dictionary returned by a successful
`GuidelineDataPreparationModule._parse_path_metadata`. -/
structure GuidelineMeta where
  book_name : Text
  chapter_index : Text
  chapter_name : Text
  part_index : Nat
  source_file : Text
  hierarchy_string : Text
deriving DecidableEq

/-- `GuidelineDataPreparationModule._parse_path_metadata`
(`data_preparation.py:413-458`) on the segments of the path relative to the
corpus root; `none` is the `{"is_valid": False}` result for depth below 3. -/
def parse_path_metadata (pathParts : List Text) : Option GuidelineMeta :=
  match pathParts with
  | p0 :: p1 :: p2 :: rest =>
    let book_name := camel_case_split p0
    let chapterPair :=
      match splitFirstUnderscore p1 with
      | some pr => (pr.1, underscoresToSpaces pr.2)
      | none => ("0".toList, p1)
    let file_name := rest.getLastD p2
    let part_str := (searchPartNumber file_name).getD "1".toList
    some { book_name := book_name
           chapter_index := chapterPair.1
           chapter_name := chapterPair.2
           part_index := digitsToNat part_str
           source_file := file_name
           hierarchy_string := book_name ++ " > ".toList ++ chapterPair.1 ++ ". ".toList
             ++ chapterPair.2 ++ " > Part ".toList ++ part_str }
  | _ => none

/-- A minimal document/chunk carrying only a parent id, for the parent
resolver test cases. -/
def c1doc (pid : Text) : RagDocument := { pageContent := [], parentId := some pid }

/-- The ingested parent documents A, B, C of the resolver test cases. -/
def c1docsABC : List RagDocument :=
  [c1doc "A".toList, c1doc "B".toList, c1doc "C".toList]

/-- Retrieved fragments whose parents are `[A, A, B, A, C]` (the spec's
resolver example). -/
def c1chunksAABAC : List RagDocument :=
  [c1doc "A".toList, c1doc "A".toList, c1doc "B".toList, c1doc "A".toList, c1doc "C".toList]

/-- Retrieved fragments whose parents are `[A, B, B]`: parent B has the higher
relevance count but is encountered second. -/
def c1chunksABB : List RagDocument :=
  [c1doc "A".toList, c1doc "B".toList, c1doc "B".toList]

/-- The reference-section names in the truncation pattern of
`clean_academic_markdown` (`data_preparation.py:56`). -/
def refWordsAcademic : List Text :=
  ["references".toList, "bibliography".toList, "literature cited".toList, "works cited".toList]

/-- The reference-section names in the truncation pattern of
`clean_guideline_markdown` (`data_preparation.py:388`). -/
def refWordsGuideline : List Text :=
  ["references".toList, "bibliography".toList, "literature cited".toList]

/-- Whether the multiline pattern `(?i)^#+\s*(<section names>).*` matches at
this line-start position: one or more `#`, then any amount of whitespace
(Python `\s` may even cross line breaks), then one of the section names
case-insensitively; the trailing `.*` imposes no constraint. -/
def refMatchAt (words : List Text) (s : Text) : Bool :=
  match s with
  | [] => false
  | c :: rest =>
    c = '#' && words.any (fun w =>
      w.isPrefixOf (pyLower ((rest.dropWhile (fun c2 => c2 = '#')).dropWhile pyIsSpace)))

/-- The reference truncation
(`re.split(ref_pattern, text, flags=re.MULTILINE)` keeping `parts[0]`,
`data_preparation.py:56-61` and `388-390`): the pattern is checked at the
start of every line; everything from the first matching line start onward is
discarded. -/
def truncRefsAux (words : List Text) : Bool → Text → Text
  | _, [] => []
  | atLineStart, c :: rest =>
    if atLineStart && refMatchAt words (c :: rest) then []
    else c :: truncRefsAux words (c = '\n') rest

/-- Truncation entry point: position 0 is a line start. -/
def truncate_references (words : List Text) (s : Text) : Text := truncRefsAux words true s

/-- `re.sub(r'<[^>]+>', '', s)` (`data_preparation.py:66-67` and `394`) as a
two-mode scanner: outside any candidate tag (`none`) or inside one
(`some acc` with the reversed characters seen since the opening `<`).  A `<`
followed by one or more non-`>` characters and a `>` is deleted; an unclosed
or immediately-closed (`<>`) candidate is emitted verbatim, which matches the
regex's advance-by-one rescan because the skipped span contains no further
closable tag. -/
def removeTagsAux : Option Text → Text → Text
  | none, [] => []
  | none, c :: rest =>
    if c = '<' then removeTagsAux (some []) rest
    else c :: removeTagsAux none rest
  | some acc, [] => '<' :: acc.reverse
  | some acc, c :: rest =>
    if c = '>' then
      if acc = [] then '<' :: '>' :: removeTagsAux none rest
      else removeTagsAux none rest
    else removeTagsAux (some (c :: acc)) rest

/-- Scanner state for the image-link pattern: `Sum.inl acc` is inside `![...`
still looking for `](` (reversed caption so far); `Sum.inr (cap, acc2)` is
past `](` looking for `)` (caption in order, reversed post-`(` characters). -/
abbrev ImgScanState := Option (Text ⊕ Text × Text)

/-- `re.sub(r'!\[.*?\]\(.*?\)', '', s)` for the flat corpus
(`data_preparation.py:71-72`, `keep = false`) and
`re.sub(r'!\[(.*?)\]\(.*?\)', r'\1', s)` for the guideline corpus
(`data_preparation.py:397`, `keep = true`).  Matches cannot cross newlines
(`.` excludes `\n`); the lazy quantifiers take the first `](` after `![` and
the first `)` after that; on a failed candidate every consumed character is
emitted verbatim, which agrees with the regex's rescan because any nested
`![` inside the failed span fails for the same missing delimiter. -/
def removeImagesAux (keep : Bool) : ImgScanState → Text → Text
  | none, [] => []
  | none, c :: rest =>
    if c = '!' then
      match rest with
      | [] => [c]
      | c2 :: rest2 =>
        if c2 = '[' then removeImagesAux keep (some (Sum.inl [])) rest2
        else c :: removeImagesAux keep none (c2 :: rest2)
    else c :: removeImagesAux keep none rest
  | some (Sum.inl acc), [] => '!' :: '[' :: acc.reverse
  | some (Sum.inl acc), c :: rest =>
    if c = '\n' then '!' :: '[' :: acc.reverse ++ '\n' :: removeImagesAux keep none rest
    else if c = ']' then
      match rest with
      | [] => '!' :: '[' :: acc.reverse ++ [']']
      | c2 :: rest2 =>
        if c2 = '(' then removeImagesAux keep (some (Sum.inr (acc.reverse, []))) rest2
        else removeImagesAux keep (some (Sum.inl (']' :: acc))) (c2 :: rest2)
    else removeImagesAux keep (some (Sum.inl (c :: acc))) rest
  | some (Sum.inr capAcc), [] => '!' :: '[' :: capAcc.1 ++ ']' :: '(' :: capAcc.2.reverse
  | some (Sum.inr capAcc), c :: rest =>
    if c = '\n' then
      '!' :: '[' :: capAcc.1 ++ ']' :: '(' :: capAcc.2.reverse ++ '\n'
        :: removeImagesAux keep none rest
    else if c = ')' then (if keep then capAcc.1 else []) ++ removeImagesAux keep none rest
    else removeImagesAux keep (some (Sum.inr (capAcc.1, c :: capAcc.2))) rest

/-- `re.sub(r'<br\s*/?>', '\n', s)` (`data_preparation.py:393`) as a two-mode
scanner: `some acc` means `<br` has been read and `acc` holds the reversed
whitespace consumed by `\s*`.  On failure the consumed span (which contains
no `<` except a directly following new candidate) is emitted verbatim. -/
def brSubAux : Option Text → Text → Text
  | none, [] => []
  | none, c :: rest =>
    if c = '<' then
      match rest with
      | 'b' :: 'r' :: rest2 => brSubAux (some []) rest2
      | r => c :: brSubAux none r
    else c :: brSubAux none rest
  | some acc, [] => '<' :: 'b' :: 'r' :: acc.reverse
  | some acc, c :: rest =>
    if c = '>' then '\n' :: brSubAux none rest
    else if c = '/' then
      match rest with
      | '>' :: rest2 => '\n' :: brSubAux none rest2
      | r => '<' :: 'b' :: 'r' :: acc.reverse ++ '/' :: brSubAux none r
    else if pyIsSpace c then brSubAux (some (c :: acc)) rest
    else if c = '<' then
      match rest with
      | 'b' :: 'r' :: rest2 => '<' :: 'b' :: 'r' :: acc.reverse ++ brSubAux (some []) rest2
      | r => '<' :: 'b' :: 'r' :: acc.reverse ++ '<' :: brSubAux none r
    else '<' :: 'b' :: 'r' :: acc.reverse ++ c :: brSubAux none rest

/-- `re.sub(r'\n{3,}', '\n\n', s)` (`data_preparation.py:75` and `400`): `k`
counts the pending run of newlines; each maximal run of three or more
newlines is replaced by exactly two. -/
def collapseAux : Nat → Text → Text
  | k, [] => List.replicate (min k 2) '\n'
  | k, c :: rest =>
    if c = '\n' then collapseAux (k + 1) rest
    else List.replicate (min k 2) '\n' ++ c :: collapseAux 0 rest

/-- No three consecutive newlines occur in the text. -/
def noTripleNewline : Text → Bool
  | [] => true
  | [_] => true
  | [_, _] => true
  | a :: b :: c :: rest => !(a = '\n' && b = '\n' && c = '\n') && noTripleNewline (b :: c :: rest)

/-- `DataPreparationModule.clean_academic_markdown`
(`data_preparation.py:43-77`): truncate at the first reference heading, strip
markup tags, drop image links entirely, collapse runs of three or more
newlines to two, and trim surrounding whitespace. -/
def clean_academic_markdown (text : Text) : Text :=
  if text = [] then []
  else pyStrip (collapseAux 0 (removeImagesAux false none (removeTagsAux none
    (truncate_references refWordsAcademic text))))

/-- `GuidelineDataPreparationModule.clean_guideline_markdown`
(`data_preparation.py:380-402`): as the academic cleaner, but `<br>` tags
become newlines before tag removal and image links keep their caption text. -/
def clean_guideline_markdown (text : Text) : Text :=
  if text = [] then []
  else pyStrip (collapseAux 0 (removeImagesAux true none (removeTagsAux none
    (brSubAux none (truncate_references refWordsGuideline text)))))

/-- The text that refutes idempotence of the cleaners: the markup tag hides
the `# References` heading from the first truncation pass, tag removal then
exposes it, and only a second application truncates the body away. -/
def c6text : Text := "#<b> References\nbody".toList

/-- One ingested source file as the chunkers see it: normalized text plus the
deterministic parent id attached at load time
(`data_preparation.py:106-116` / `480-500`). -/
structure ParentDoc where
  pageContent : Text
  parent_id : Text
deriving DecidableEq

/-- A produced child fragment, restricted to the metadata fields the
parent-child index claims concern (`chunk_id`, `parent_id`, `doc_type`). -/
structure Fragment where
  pageContent : Text
  chunk_id : Option Text
  parent_id : Text
  doc_type : Text
deriving DecidableEq

/-- Python `text.split("\n")`: always at least one (possibly empty) line. -/
def splitLines : Text → List Text
  | [] => [[]]
  | c :: rest =>
    if c = '\n' then [] :: splitLines rest
    else
      match splitLines rest with
      | [] => [[c]]
      | l :: ls => (c :: l) :: ls

/-- Join lines back with newlines (the inverse of `splitLines`). -/
def joinLines : List Text → Text
  | [] => []
  | [l] => l
  | l :: l2 :: ls => l ++ '\n' :: joinLines (l2 :: ls)

/-- Modelled from the spec: a heading line as detected by the external
`MarkdownHeaderTextSplitter` (a line whose first non-blank character is `#`;
the splitter itself is a langchain collaborator, not code of this
repository). -/
def isHeadingLine (line : Text) : Bool :=
  match lstripWS line with
  | c :: _ => c = '#'
  | [] => false

/-- Modelled from the spec: group lines into fragments, each heading line
starting a new fragment; `cur` is the fragment being accumulated. -/
def groupLinesAux (cur : List Text) : List Text → List (List Text)
  | [] => [cur]
  | line :: rest =>
    if isHeadingLine line then cur :: groupLinesAux [line] rest
    else groupLinesAux (cur ++ [line]) rest

/-- Modelled from the spec: the external `MarkdownHeaderTextSplitter.split_text`
configured at `data_preparation.py:192-202` and `519-528`
(`strip_headers=False`, heading levels 1-3): "Detect heading lines at three
nesting levels; split the text at each heading boundary, retaining the
heading text in the resulting fragment. If the first segment of text contains
no heading markers at all, emit a single fragment containing the whole
document." -/
def markdown_header_split (text : Text) : List Text :=
  match splitLines text with
  | [] => []
  | l :: ls => (groupLinesAux [l] ls).map joinLines

/-- The per-document fragment construction of the successful split path
(`data_preparation.py:228-243`): fresh child ids drawn from the supply
`idGen` at successive counters, inherited parent id, `doc_type` `child`. -/
def splitDocFrags (idGen : Nat → Text) (pid : Text) : Nat → List Text → List Fragment
  | _, [] => []
  | ctr, t :: ts =>
    { pageContent := t, chunk_id := some (idGen ctr), parent_id := pid,
      doc_type := "child".toList } :: splitDocFrags idGen pid (ctr + 1) ts

/-- The parent-child map entries contributed by a fragment list, in order
(`self.parent_child_map[child_id] = parent_id`, `data_preparation.py:242`). -/
def fragEntries (frags : List Fragment) : List (Text × Text) :=
  frags.filterMap (fun f => f.chunk_id.map (fun cid => (cid, f.parent_id)))

/-- `DataPreparationModule._markdown_header_split`
(`data_preparation.py:184-252`) over the document list.  Per document, either
the split succeeds and child fragments plus their map entries are produced,
or the exception handler of lines 246-249 fires (`fails doc` is an oracle
abstracting the caught exception) and the raw parent document itself is
appended as a chunk with no map entry.  `uuid.uuid4()` is modelled by the
fresh-id supply `idGen` with a threaded counter.  Returns the fragments, the
parent-child map, and the next counter. -/
def flat_markdown_header_split (idGen : Nat → Text) (fails : ParentDoc → Bool) :
    List ParentDoc → Nat → List Fragment × List (Text × Text) × Nat
  | [], ctr => ([], [], ctr)
  | doc :: rest, ctr =>
    if fails doc then
      let r := flat_markdown_header_split idGen fails rest ctr
      ({ pageContent := doc.pageContent, chunk_id := none, parent_id := doc.parent_id,
         doc_type := "parent".toList } :: r.1, r.2.1, r.2.2)
    else
      let frags := splitDocFrags idGen doc.parent_id ctr (markdown_header_split doc.pageContent)
      let r := flat_markdown_header_split idGen fails rest (ctr + frags.length)
      (frags ++ r.1, fragEntries frags ++ r.2.1, r.2.2)

/-- The id-assignment pass of `DataPreparationModule.chunk_documents`
(`data_preparation.py:173-178`): fragments without a `chunk_id` (the
caught-failure fallbacks) receive a fresh id; the parent-child map is not
updated here. -/
def assign_missing_ids (idGen : Nat → Text) : Nat → List Fragment → List Fragment
  | _, [] => []
  | ctr, f :: fs =>
    match f.chunk_id with
    | some _ => f :: assign_missing_ids idGen ctr fs
    | none => { f with chunk_id := some (idGen ctr) } :: assign_missing_ids idGen (ctr + 1) fs

/-- `DataPreparationModule.chunk_documents` (`data_preparation.py:157-182`):
split all documents, then assign ids to chunks that lack one.  Returns the
fragment list and the parent-child map. -/
def flat_chunk_documents (idGen : Nat → Text) (fails : ParentDoc → Bool)
    (docs : List ParentDoc) : List Fragment × List (Text × Text) :=
  let r := flat_markdown_header_split idGen fails docs 0
  (assign_missing_ids idGen r.2.2 r.1, r.2.1)

/-- `GuidelineDataPreparationModule.chunk_documents`
(`data_preparation.py:510-571`): no exception handler exists, every fragment
is a child with a fresh id and a map entry, so on the fields modelled here it
is the flat loop with the failure oracle constantly false. -/
def guideline_chunk_documents (idGen : Nat → Text) (docs : List ParentDoc) :
    List Fragment × List (Text × Text) :=
  let r := flat_markdown_header_split idGen (fun _ => false) docs 0
  (r.1, r.2.1)

/-- The greedy packing loop includes a prefix of the formatted blocks: the
included blocks fit in the budget, and if a block was left out, adding the
next one would overflow. -/
theorem contextParts_greedy (maxLength : Nat) :
    ∀ (docs : List RagDocument) (i curLen : Nat),
    ∃ k, k ≤ (blockList i docs).length ∧
      contextParts maxLength i curLen docs = (blockList i docs).take k ∧
      (0 < k → curLen + textsLen ((blockList i docs).take k) ≤ maxLength) ∧
      (k < (blockList i docs).length →
        maxLength < curLen + textsLen ((blockList i docs).take (k + 1))) := by
  intro docs
  induction docs with
  | nil =>
    intro i curLen
    exact ⟨0, by simp [blockList], by simp [contextParts, blockList], by simp, by simp [blockList]⟩
  | cons d rest ih =>
    intro i curLen
    by_cases h : curLen + (contextBlock i d).length > maxLength
    · refine ⟨0, by simp, by simp [contextParts, h], by simp, ?_⟩
      intro _
      simpa [blockList, textsLen] using h
    · obtain ⟨k, hk_le, hk_eq, hk_fit, hk_over⟩ := ih (i + 1) (curLen + (contextBlock i d).length)
      refine ⟨k + 1, ?_, ?_, ?_, ?_⟩
      · simpa [blockList] using Nat.succ_le_succ hk_le
      · simp [contextParts, h, blockList, hk_eq]
      · intro _
        rcases Nat.eq_zero_or_pos k with h0 | hpos
        · subst h0
          simp [blockList, textsLen]
          omega
        · have hfit := hk_fit hpos
          simp [blockList, textsLen] at hfit ⊢
          omega
      · intro hlt
        have hlt' : k < (blockList (i + 1) rest).length := by
          simp [blockList] at hlt
          omega
        have hover := hk_over hlt'
        simp [blockList, textsLen] at hover ⊢
        omega

/-- The 900-character block length of the test documents, for 1-digit indices. -/
theorem c3doc_block_length (i : Nat) (c : Char) (h : (Nat.repr i).length = 1) :
    (contextBlock i (c3doc c)).length = 900 := by
  have e1 : ("【治疗方案 ".toList).length = 6 := rfl
  have e2 : ("】".toList).length = 1 := rfl
  have e3 : ("\n".toList).length = 1 := rfl
  have e4 : (Nat.repr i).toList.length = 1 := by
    rw [← h]
    rfl
  simp only [contextBlock, c3doc, List.length_append, List.length_replicate, e1, e2, e3, e4]

/-- On the three 900-character blocks with budget 2000, the loop keeps exactly
the first two blocks. -/
theorem c3_parts_eq :
    contextParts 2000 1 0 c3docs = [contextBlock 1 (c3doc 'a'), contextBlock 2 (c3doc 'b')] := by
  have l1 := c3doc_block_length 1 'a' (by decide)
  have l2 := c3doc_block_length 2 'b' (by decide)
  have l3 := c3doc_block_length 3 'c' (by decide)
  simp [c3docs, contextParts, l1, l2, l3]

set_option maxRecDepth 8000 in
/-- C3: the context composer packs blocks greedily in order under the character
budget, dropping the first overflowing block entirely and stopping there; on
three 900-character blocks with budget 2000 exactly the first two blocks
appear, the result stays within the budget plus the separator prefix, and the
third block's content is wholly absent. -/
theorem c3_context_composer_greedy_packing :
    (∀ (maxLength : Nat) (docs : List RagDocument), ∃ k,
        k ≤ (blockList 1 docs).length ∧
        contextParts maxLength 1 0 docs = (blockList 1 docs).take k ∧
        (0 < k → textsLen ((blockList 1 docs).take k) ≤ maxLength) ∧
        (k < (blockList 1 docs).length →
          maxLength < textsLen ((blockList 1 docs).take (k + 1)))) ∧
    ((contextBlock 1 (c3doc 'a')).length = 900 ∧
      (contextBlock 2 (c3doc 'b')).length = 900 ∧
      (contextBlock 3 (c3doc 'c')).length = 900) ∧
    contextParts 2000 1 0 c3docs = [contextBlock 1 (c3doc 'a'), contextBlock 2 (c3doc 'b')] ∧
    (build_context c3docs 2000).length ≤ 2000 + contextSeparator.length ∧
    'c' ∈ contextBlock 3 (c3doc 'c') ∧
    'c' ∉ build_context c3docs 2000 := by
  have l1 := c3doc_block_length 1 'a' (by decide)
  have l2 := c3doc_block_length 2 'b' (by decide)
  have l3 := c3doc_block_length 3 'c' (by decide)
  have hbc : build_context c3docs 2000 =
      contextSeparator ++ (contextBlock 1 (c3doc 'a') ++ '\n' :: contextBlock 2 (c3doc 'b')) := by
    rw [build_context, if_neg (by simp [c3docs]), c3_parts_eq]
    simp [List.intercalate]
  refine ⟨?_, ⟨l1, l2, l3⟩, c3_parts_eq, ?_, ?_, ?_⟩
  · intro maxLength docs
    obtain ⟨k, h1, h2, h3, h4⟩ := contextParts_greedy maxLength docs 1 0
    exact ⟨k, h1, h2, by simpa using h3, by simpa using h4⟩
  · rw [hbc]
    simp [contextSeparator, l1, l2]
  · have hb3 : contextBlock 3 (c3doc 'c') = "【治疗方案 3】".toList
        ++ '\n' :: (List.replicate 890 'c' ++ ['\n']) := rfl
    rw [hb3]
    refine List.mem_append.mpr (Or.inr ?_)
    refine List.mem_cons.mpr (Or.inr ?_)
    exact List.mem_append.mpr (Or.inl (List.mem_replicate.mpr ⟨by omega, rfl⟩))
  · have hbA : contextBlock 1 (c3doc 'a') = "【治疗方案 1】".toList
        ++ '\n' :: (List.replicate 890 'a' ++ ['\n']) := rfl
    have hbB : contextBlock 2 (c3doc 'b') = "【治疗方案 2】".toList
        ++ '\n' :: (List.replicate 890 'b' ++ ['\n']) := rfl
    rw [hbc, hbA, hbB]
    intro hx
    rcases List.mem_append.mp hx with hx | hx
    · rcases List.mem_cons.mp hx with hx | hx
      · exact absurd hx (by decide)
      · exact absurd (List.eq_of_mem_replicate hx) (by decide)
    · rcases List.mem_append.mp hx with hx | hx
      · rcases List.mem_append.mp hx with hx | hx
        · exact absurd hx (by decide)
        · rcases List.mem_cons.mp hx with hx | hx
          · exact absurd hx (by decide)
          · rcases List.mem_append.mp hx with hx | hx
            · exact absurd (List.eq_of_mem_replicate hx) (by decide)
            · exact absurd hx (by decide)
      · rcases List.mem_cons.mp hx with hx | hx
        · exact absurd hx (by decide)
        · rcases List.mem_append.mp hx with hx | hx
          · exact absurd hx (by decide)
          · rcases List.mem_cons.mp hx with hx | hx
            · exact absurd hx (by decide)
            · rcases List.mem_append.mp hx with hx | hx
              · exact absurd (List.eq_of_mem_replicate hx) (by decide)
              · exact absurd hx (by decide)

/-- C10: the "no relevant information" placeholder appears exactly for the
empty document list; a non-empty list whose very first block already exceeds
the budget yields just the separator prefix, not the placeholder. -/
theorem c10_placeholder_only_for_empty_input :
    (∀ maxLength, build_context [] maxLength = noInfoPlaceholder) ∧
    (∀ (doc : RagDocument) (rest : List RagDocument) (maxLength : Nat),
      maxLength < (contextBlock 1 doc).length →
      build_context (doc :: rest) maxLength = contextSeparator) ∧
    contextSeparator ≠ noInfoPlaceholder ∧
    (∀ (docs : List RagDocument) (maxLength : Nat),
      build_context docs maxLength = noInfoPlaceholder → docs = []) := by
  have hsep : ∀ (doc : RagDocument) (rest : List RagDocument) (maxLength : Nat),
      maxLength < (contextBlock 1 doc).length →
      build_context (doc :: rest) maxLength = contextSeparator := by
    intro doc rest maxLength h
    rw [build_context, if_neg (by simp)]
    rw [show contextParts maxLength 1 0 (doc :: rest) = [] by
      simp [contextParts]
      omega]
    simp [List.intercalate]
  refine ⟨?_, hsep, ?_, ?_⟩
  · intro maxLength
    simp [build_context]
  · decide
  · intro docs maxLength h
    cases docs with
    | nil => rfl
    | cons d rest =>
      rw [build_context, if_neg (by simp)] at h
      exact absurd (congrArg (List.headD · ' ') h) (by simp [contextSeparator, noInfoPlaceholder])

/-- Witness for C10 at a concrete input: a one-character document whose block
(length 11) exceeds a budget of 5, and the empty list. -/
theorem c10_witness :
    build_context [{ pageContent := "x".toList }] 5 = contextSeparator ∧
    ([] : List RagDocument) = [] := by
  refine ⟨c10_placeholder_only_for_empty_input.2.1 _ [] 5 (by decide), ?_⟩
  exact c10_placeholder_only_for_empty_input.2.2.2 [] 5
    (c10_placeholder_only_for_empty_input.1 5)

/-- C2: the query router strips and lower-cases the raw backend response,
returns it when it is exactly one of the three valid labels, and otherwise
falls back to `general`; its output is always a valid route label. -/
theorem c2_router_normalizes_and_falls_back :
    (∀ response : Text,
      query_router_postprocess response = "list".toList ∨
      query_router_postprocess response = "detail".toList ∨
      query_router_postprocess response = "general".toList) ∧
    (∀ response : Text,
      (pyLower (pyStrip response) = "list".toList ∨
        pyLower (pyStrip response) = "detail".toList ∨
        pyLower (pyStrip response) = "general".toList) →
      query_router_postprocess response = pyLower (pyStrip response)) ∧
    (∀ response : Text,
      ¬(pyLower (pyStrip response) = "list".toList ∨
        pyLower (pyStrip response) = "detail".toList ∨
        pyLower (pyStrip response) = "general".toList) →
      query_router_postprocess response = "general".toList) := by
  refine ⟨?_, ?_, ?_⟩
  · intro response
    rw [query_router_postprocess]
    split
    · next h => rcases h with h | h | h <;> simp [h]
    · simp
  · intro response h
    rw [query_router_postprocess, if_pos h]
  · intro response h
    rw [query_router_postprocess, if_neg h]

/-- Witness for C2 at concrete inputs: a padded upper-case valid label is
normalized and returned, an arbitrary other response falls back to `general`. -/
theorem c2_witness :
    query_router_postprocess "  LIST \n".toList = "list".toList ∧
    query_router_postprocess "I think: detail".toList = "general".toList := by
  constructor
  · have h := c2_router_normalizes_and_falls_back.2.1 "  LIST \n".toList (by decide)
    rw [h]
    decide
  · exact c2_router_normalizes_and_falls_back.2.2 "I think: detail".toList (by decide)

/-- `List.isPrefixOf` agrees with an append decomposition. -/
theorem isPrefixOf_iff_append : ∀ (n h : Text), n.isPrefixOf h = true ↔ ∃ rest, h = n ++ rest := by
  intro n
  induction n with
  | nil =>
    intro h
    simp [List.isPrefixOf]
  | cons a n' ih =>
    intro h
    cases h with
    | nil => simp [List.isPrefixOf]
    | cons b h' =>
      simp only [List.isPrefixOf, Bool.and_eq_true, beq_iff_eq, ih h', List.cons_append]
      constructor
      · rintro ⟨hab, rest, hr⟩
        exact ⟨rest, by simp [hab, hr]⟩
      · rintro ⟨rest, hr⟩
        injection hr with h1 h2
        exact ⟨h1.symm, rest, h2⟩

/-- `isSub` is exactly literal substring containment. -/
theorem isSub_iff (n : Text) : ∀ hay : Text, isSub n hay = true ↔ ∃ pre post, hay = pre ++ n ++ post := by
  intro hay
  induction hay with
  | nil =>
    simp only [isSub, List.isEmpty_iff]
    constructor
    · intro h
      exact ⟨[], [], by simp [h]⟩
    · rintro ⟨pre, post, hp⟩
      rcases List.append_eq_nil.mp (List.append_eq_nil.mp hp.symm).1 with ⟨-, h2⟩
      exact h2
  | cons c t ih =>
    simp only [isSub, Bool.or_eq_true, isPrefixOf_iff_append, ih]
    constructor
    · rintro (⟨rest, hr⟩ | ⟨pre, post, hp⟩)
      · exact ⟨[], rest, by simp [hr]⟩
      · exact ⟨c :: pre, post, by simp [hp]⟩
    · rintro ⟨pre, post, hp⟩
      cases pre with
      | nil => exact Or.inl ⟨post, by simpa using hp⟩
      | cons p ps =>
        injection hp with h1 h2
        exact Or.inr ⟨ps, post, h2⟩

/-- The scan returns `none` exactly when no label is a substring. -/
theorem extract_loop_none_iff (labels : List String) (q : Text) :
    extract_filters_loop labels q = none ↔ ∀ cat ∈ labels, isSub cat.data q = false := by
  induction labels with
  | nil => simp [extract_filters_loop]
  | cons c rest ih =>
    rw [extract_filters_loop]
    by_cases h : isSub c.data q
    · simp [h]
    · simp only [Bool.not_eq_true] at h
      simp [h, ih]

/-- The scan returns `some cat` exactly when `cat` is the first label in list
order that is a substring of the question. -/
theorem extract_loop_some_iff (labels : List String) (q : Text) (cat : String) :
    extract_filters_loop labels q = some cat ↔
      ∃ l1 l2, labels = l1 ++ cat :: l2 ∧ isSub cat.data q = true ∧
        ∀ d ∈ l1, isSub d.data q = false := by
  induction labels with
  | nil => simp [extract_filters_loop]
  | cons c rest ih =>
    rw [extract_filters_loop]
    by_cases h : isSub c.data q
    · rw [if_pos h]
      constructor
      · intro heq
        injection heq with heq
        exact ⟨[], rest, by simp [heq], by rw [heq] at h; exact h, by simp⟩
      · rintro ⟨l1, l2, hsplit, hsub, hnone⟩
        cases l1 with
        | nil =>
          injection hsplit with e1 _
          simp [e1]
        | cons x xs =>
          injection hsplit with e1 _
          have hx := hnone x (by simp)
          rw [← e1] at hx
          simp [hx] at h
    · rw [if_neg h]
      rw [ih]
      constructor
      · rintro ⟨l1, l2, hsplit, hsub, hnone⟩
        refine ⟨c :: l1, l2, by simp [hsplit], hsub, ?_⟩
        intro d hd
        rcases List.mem_cons.mp hd with rfl | hd'
        · simpa using h
        · exact hnone d hd'
      · rintro ⟨l1, l2, hsplit, hsub, hnone⟩
        cases l1 with
        | nil =>
          injection hsplit with e1 _
          rw [← e1] at hsub
          exact absurd hsub (by simpa using h)
        | cons x xs =>
          injection hsplit with e1 e2
          exact ⟨xs, l2, e2, hsub, fun d hd => hnone d (by simp [hd])⟩

/-- C9: the filter extractor scans the label list in order and returns the
first label that occurs as a literal substring of the question as a
`category` filter, and the empty filter set when no label occurs; checked
for an arbitrary label ordering and at the concrete label set of the code. -/
theorem c9_filter_extractor_first_substring_match :
    (∀ (labels : List String) (query : Text),
      (extract_filters_from_query labels query = [] ↔
        ∀ cat ∈ labels, ¬∃ pre post, query = pre ++ cat.data ++ post) ∧
      (∀ cat, extract_filters_from_query labels query = [("category", cat)] ↔
        ∃ l1 l2, labels = l1 ++ cat :: l2 ∧
          (∃ pre post, query = pre ++ cat.data ++ post) ∧
          ∀ d ∈ l1, ¬∃ pre post, query = pre ++ d.data ++ post)) ∧
    extract_filters_from_query CATEGORY_LABELS "骨折怎么治疗".toList = [("category", "骨折")] ∧
    extract_filters_from_query CATEGORY_LABELS "腰痛怎么办".toList = [] := by
  refine ⟨?_, by decide, by decide⟩
  intro labels query
  constructor
  · rw [extract_filters_from_query]
    cases hl : extract_filters_loop labels query with
    | none =>
      rw [extract_loop_none_iff] at hl
      simp only [true_iff]
      intro cat hc
      rw [← isSub_iff]
      simp [hl cat hc]
    | some c =>
      rw [extract_loop_some_iff] at hl
      obtain ⟨l1, l2, hsplit, hsub, -⟩ := hl
      simp only [List.cons_ne_nil, false_iff, not_forall]
      exact ⟨c, by simp [hsplit], by rw [← isSub_iff]; simp [hsub]⟩
  · intro cat
    cases hl : extract_filters_loop labels query with
    | none =>
      simp only [extract_filters_from_query, hl]
      rw [extract_loop_none_iff] at hl
      constructor
      · intro heq
        simp at heq
      · rintro ⟨l1, l2, hsplit, hsub, -⟩
        rw [← isSub_iff] at hsub
        have hf := hl cat (by simp [hsplit])
        rw [hf] at hsub
        simp at hsub
    | some c =>
      simp only [extract_filters_from_query, hl]
      have hc := (extract_loop_some_iff labels query c).mp hl
      constructor
      · intro heq
        have hcc : c = cat := by
          injection heq with hpair _
          exact congrArg Prod.snd hpair
        subst hcc
        obtain ⟨l1, l2, hsplit, hsub, hnone⟩ := hc
        refine ⟨l1, l2, hsplit, by rw [← isSub_iff]; simp [hsub], ?_⟩
        intro d hd
        rw [← isSub_iff]
        simp [hnone d hd]
      · rintro ⟨l1, l2, hsplit, hsub, hnone⟩
        have hsome : extract_filters_loop labels query = some cat := by
          rw [extract_loop_some_iff]
          refine ⟨l1, l2, hsplit, by rw [isSub_iff]; exact hsub, ?_⟩
          intro d hd
          have hnd := hnone d hd
          rw [← isSub_iff] at hnd
          simpa using hnd
        rw [hl] at hsome
        injection hsome with e
        simp [e]

/-- C4: `ask_question` raises the no-knowledge-base error exactly when one of
the required modules is absent; with the knowledge base present, empty
retrieval returns the fixed not-found message as a normal result, and no
other input makes it raise. -/
theorem c4_no_knowledge_base_error_and_not_found_message :
    (∀ (st : RAGSystemState) (chunks : List RagDocument) (generate : List RagDocument → Text),
      (st.caseReportRetrievalPresent = false ∨ st.generationPresent = false ∨
        st.guidelineRetrievalPresent = false) →
      ask_question st chunks generate = Except.error noKnowledgeBaseMsg) ∧
    (∀ (st : RAGSystemState) (generate : List RagDocument → Text),
      st.caseReportRetrievalPresent = true → st.generationPresent = true →
      st.guidelineRetrievalPresent = true →
      ask_question st [] generate = Except.ok notFoundMsg) ∧
    (∀ (st : RAGSystemState) (chunks : List RagDocument) (generate : List RagDocument → Text)
      (e : Text), ask_question st chunks generate = Except.error e →
      e = noKnowledgeBaseMsg ∧
        ¬(st.caseReportRetrievalPresent = true ∧ st.generationPresent = true ∧
          st.guidelineRetrievalPresent = true)) := by
  refine ⟨?_, ?_, ?_⟩
  · intro st chunks generate h
    rw [ask_question, if_pos]
    simp only [Bool.and_eq_true, not_and]
    rcases h with h | h | h <;> simp [h]
  · intro st generate h1 h2 h3
    rw [ask_question, if_neg (by simp [h1, h2, h3]), if_pos rfl]
  · intro st chunks generate e h
    rw [ask_question] at h
    split at h
    · next hmod =>
      injection h with he
      simp only [Bool.and_eq_true] at hmod
      exact ⟨he.symm, fun hc => hmod ⟨⟨hc.1, hc.2.1⟩, hc.2.2⟩⟩
    · split at h <;> exact absurd h (by simp)

/-- Witness for C4 at concrete inputs: a missing retrieval module raises the
error, a present knowledge base with empty retrieval returns the message. -/
theorem c4_witness :
    ask_question ⟨false, true, true, []⟩ [] (fun _ => []) = Except.error noKnowledgeBaseMsg ∧
    ask_question ⟨true, true, true, []⟩ [] (fun _ => []) = Except.ok notFoundMsg ∧
    noKnowledgeBaseMsg = noKnowledgeBaseMsg := by
  have h1 := c4_no_knowledge_base_error_and_not_found_message.1
    ⟨false, true, true, []⟩ [] (fun _ => []) (Or.inl rfl)
  have h2 := c4_no_knowledge_base_error_and_not_found_message.2.1
    ⟨true, true, true, []⟩ (fun _ => []) rfl rfl rfl
  have h3 := (c4_no_knowledge_base_error_and_not_found_message.2.2
    ⟨false, true, true, []⟩ [] (fun _ => []) noKnowledgeBaseMsg h1).1
  exact ⟨h1, h2, h3⟩

/-- A segment without underscores is not split. -/
theorem splitFirstUnderscore_none (s : Text) (h : '_' ∉ s) : splitFirstUnderscore s = none := by
  induction s with
  | nil => rfl
  | cons c rest ih =>
    simp only [List.mem_cons, not_or] at h
    rw [splitFirstUnderscore, if_neg (fun hc => h.1 hc.symm), ih h.2]
    rfl

/-- Splitting at the first underscore returns the underscore-free part before
it and everything after it. -/
theorem splitFirstUnderscore_append (pre post : Text) (h : '_' ∉ pre) :
    splitFirstUnderscore (pre ++ '_' :: post) = some (pre, post) := by
  induction pre with
  | nil => simp [splitFirstUnderscore]
  | cons c rest ih =>
    simp only [List.mem_cons, not_or] at h
    rw [List.cons_append, splitFirstUnderscore, if_neg (fun hc => h.1 hc.symm), ih h.2]
    rfl

/-- Camel-case splitting only inserts spaces: removing them recovers the
space-free input. -/
theorem camel_case_split_chars (s : Text) (h : ' ' ∉ s) :
    (camel_case_split s).filter (fun c => c != ' ') = s := by
  induction s using camel_case_split.induct with
  | case1 => rfl
  | case2 a =>
    simp only [List.mem_singleton] at h
    have ha : (a != ' ') = true := by simpa using Ne.symm h
    simp [camel_case_split, List.filter, ha]
  | case3 a b rest2 nl hcond ih =>
    simp only [camel_case_split]
    rw [if_pos hcond]
    simp only [List.mem_cons, not_or] at h
    have ha : (a != ' ') = true := by simpa using Ne.symm h.1
    have ihb := ih (by simp only [List.mem_cons, not_or]; exact ⟨h.2.1, h.2.2⟩)
    simp [List.filter, ha, ihb]
  | case4 a b rest2 nl hcond ih =>
    simp only [camel_case_split]
    rw [if_neg hcond]
    simp only [List.mem_cons, not_or] at h
    have ha : (a != ' ') = true := by simpa using Ne.symm h.1
    have ihb := ih (by simp only [List.mem_cons, not_or]; exact ⟨h.2.1, h.2.2⟩)
    simp [List.filter, ha, ihb]

/-- C5: the hierarchical path resolver rejects paths of depth below 3, derives
the book name by camel-case splitting of segment 1, the chapter index/name by
splitting segment 2 at the first underscore (defaulting to index "0" and the
whole segment as name), the part index from the filename's `part<digits>`
token (defaulting to 1), and the concrete path
`AdultIsthmicSpondylolisthesis/B_Diagnosis_Imaging/part2.md` resolves exactly
as the spec's example states. -/
theorem c5_path_metadata_resolver :
    (∀ pathParts : List Text, pathParts.length < 3 → parse_path_metadata pathParts = none) ∧
    (∀ s : Text, ' ' ∉ s → (camel_case_split s).filter (fun c => c != ' ') = s) ∧
    (∀ (p0 p1 : Text) (p2rest : List Text) (m : GuidelineMeta),
      parse_path_metadata (p0 :: p1 :: p2rest) = some m →
      m.book_name = camel_case_split p0 ∧
      ('_' ∉ p1 → m.chapter_index = "0".toList ∧ m.chapter_name = p1) ∧
      (∀ pre post, p1 = pre ++ '_' :: post → '_' ∉ pre →
        m.chapter_index = pre ∧ m.chapter_name = underscoresToSpaces post) ∧
      (searchPartNumber m.source_file = none → m.part_index = 1)) ∧
    parse_path_metadata
      ["AdultIsthmicSpondylolisthesis".toList, "B_Diagnosis_Imaging".toList, "part2.md".toList] =
      some { book_name := "Adult Isthmic Spondylolisthesis".toList,
             chapter_index := "B".toList,
             chapter_name := "Diagnosis Imaging".toList,
             part_index := 2,
             source_file := "part2.md".toList,
             hierarchy_string :=
               "Adult Isthmic Spondylolisthesis > B. Diagnosis Imaging > Part 2".toList } := by
  refine ⟨?_, camel_case_split_chars, ?_, by decide⟩
  · intro pathParts h
    match pathParts with
    | [] => rfl
    | [_] => rfl
    | [_, _] => rfl
    | _ :: _ :: _ :: _ => simp at h; omega
  · intro p0 p1 p2rest m hm
    match p2rest with
    | p2 :: rest =>
      simp only [parse_path_metadata] at hm
      injection hm with hm
      subst hm
      refine ⟨rfl, ?_, ?_, ?_⟩
      · intro hnu
        rw [splitFirstUnderscore_none p1 hnu]
        exact ⟨rfl, rfl⟩
      · intro pre post hsplit hpre
        rw [hsplit, splitFirstUnderscore_append pre post hpre]
        exact ⟨rfl, rfl⟩
      · intro hnone
        simp only [hnone]
        decide

/-- Witness for C5 at concrete inputs: a too-shallow path is invalid, camel
splitting preserves the characters of a concrete book name, and the chapter
rules evaluated on the example path's metadata. -/
theorem c5_witness :
    parse_path_metadata ["Book".toList] = none ∧
    (camel_case_split "AdultIsthmicSpondylolisthesis".toList).filter (fun c => c != ' ')
      = "AdultIsthmicSpondylolisthesis".toList ∧
    ({ book_name := "Adult Isthmic Spondylolisthesis".toList,
       chapter_index := "B".toList,
       chapter_name := "Diagnosis Imaging".toList,
       part_index := 2,
       source_file := "part2.md".toList,
       hierarchy_string :=
         "Adult Isthmic Spondylolisthesis > B. Diagnosis Imaging > Part 2".toList
       : GuidelineMeta }).chapter_index = "B".toList := by
  refine ⟨c5_path_metadata_resolver.1 ["Book".toList] (by decide),
    c5_path_metadata_resolver.2.1 "AdultIsthmicSpondylolisthesis".toList (by decide), ?_⟩
  have h3 := c5_path_metadata_resolver.2.2.1 "AdultIsthmicSpondylolisthesis".toList
    "B_Diagnosis_Imaging".toList ["part2.md".toList] _ c5_path_metadata_resolver.2.2.2
  exact (h3.2.2.1 "B".toList "Diagnosis_Imaging".toList (by decide) (by decide)).1

/-- Insertion produces a permutation of consing. -/
theorem sortInsert_perm (key : Text → Nat) (x : Text) :
    ∀ l : List Text, (sortInsert key x l).Perm (x :: l) := by
  intro l
  induction l with
  | nil => rfl
  | cons y ys ih =>
    rw [sortInsert]
    split
    · exact List.Perm.refl _
    · exact (ih.cons y).trans (List.Perm.swap x y ys)

/-- The stable sort permutes its input. -/
theorem sortDesc_perm (key : Text → Nat) :
    ∀ l : List Text, (sortDesc key l).Perm l := by
  intro l
  induction l with
  | nil => rfl
  | cons x xs ih =>
    rw [sortDesc]
    exact (sortInsert_perm key x (sortDesc key xs)).trans (ih.cons x)

/-- Insertion preserves descending key order. -/
theorem sortInsert_pairwise (key : Text → Nat) (x : Text) :
    ∀ l : List Text, l.Pairwise (fun a b => key b ≤ key a) →
      (sortInsert key x l).Pairwise (fun a b => key b ≤ key a) := by
  intro l
  induction l with
  | nil => simp [sortInsert]
  | cons y ys ih =>
    intro hp
    rw [sortInsert]
    split
    · next hle =>
      refine List.Pairwise.cons ?_ hp
      intro b hb
      rcases List.mem_cons.mp hb with rfl | hb'
      · exact hle
      · have := (List.pairwise_cons.mp hp).1 b hb'
        omega
    · next hgt =>
      have hy := (List.pairwise_cons.mp hp).1
      have hys := (List.pairwise_cons.mp hp).2
      refine List.Pairwise.cons ?_ (ih hys)
      intro b hb
      have hmem := (sortInsert_perm key x ys).mem_iff.mp hb
      rcases List.mem_cons.mp hmem with rfl | hb'
      · omega
      · exact hy b hb'

/-- The stable sort is descending in the key. -/
theorem sortDesc_pairwise (key : Text → Nat) :
    ∀ l : List Text, (sortDesc key l).Pairwise (fun a b => key b ≤ key a) := by
  intro l
  induction l with
  | nil => simp [sortDesc]
  | cons x xs ih =>
    rw [sortDesc]
    exact sortInsert_pairwise key x (sortDesc key xs) ih

/-- Elements passed over by an insertion have strictly larger keys, so within
one key value the inserted element lands in front. -/
theorem sortInsert_filter (key : Text → Nat) (x : Text) (k : Nat) :
    ∀ l : List Text, (sortInsert key x l).filter (fun y => key y == k) =
      if key x = k then x :: l.filter (fun y => key y == k)
      else l.filter (fun y => key y == k) := by
  intro l
  induction l with
  | nil =>
    rw [sortInsert]
    by_cases hk : key x = k
    · simp [List.filter, hk]
    · have hkb : (key x == k) = false := by simp [hk]
      simp [List.filter, hk, hkb]
  | cons y ys ih =>
    rw [sortInsert]
    split
    · next hle =>
      by_cases hk : key x = k
      · have hkb : (key x == k) = true := by simp [hk]
        simp [List.filter, hk, hkb]
      · have hkb : (key x == k) = false := by simp [hk]
        simp [List.filter, hk, hkb]
    · next hgt =>
      push_neg at hgt
      by_cases hk : key x = k
      · have hy : ¬(key y = k) := by omega
        have hyb : (key y == k) = false := by simp [hy]
        simp [List.filter, hk, hyb, ih]
      · have hkb : (key x == k) = false := by simp [hk]
        simp [List.filter, ih, hk, hkb]

/-- Stability: the sort does not change the relative order of elements that
share one key value. -/
theorem sortDesc_filter (key : Text → Nat) (k : Nat) :
    ∀ l : List Text, (sortDesc key l).filter (fun y => key y == k) =
      l.filter (fun y => key y == k) := by
  intro l
  induction l with
  | nil => rfl
  | cons x xs ih =>
    rw [sortDesc, sortInsert_filter]
    by_cases hk : key x = k
    · have hkb : (key x == k) = true := by simp [hk]
      simp [List.filter, hk, hkb, ih]
    · have hkb : (key x == k) = false := by simp [hk]
      simp [List.filter, hk, hkb, ih]

/-- Membership in the first-occurrence deduplication. -/
theorem dedupFirstAux_mem :
    ∀ (l : List Text) (seen : List Text) (x : Text),
      x ∈ dedupFirstAux seen l ↔ x ∈ l ∧ x ∉ seen := by
  intro l
  induction l with
  | nil => simp [dedupFirstAux]
  | cons y rest ih =>
    intro seen x
    rw [dedupFirstAux]
    split
    · next hy =>
      rw [ih]
      constructor
      · rintro ⟨h1, h2⟩
        exact ⟨by simp [h1], h2⟩
      · rintro ⟨h1, h2⟩
        rcases List.mem_cons.mp h1 with rfl | h1'
        · exact absurd hy h2
        · exact ⟨h1', h2⟩
    · next hy =>
      simp only [List.mem_cons, ih, List.mem_cons, not_or]
      constructor
      · rintro (rfl | ⟨h1, h2, h3⟩)
        · exact ⟨Or.inl rfl, hy⟩
        · exact ⟨Or.inr h1, h3⟩
      · rintro ⟨rfl | h1, h2⟩
        · exact Or.inl rfl
        · by_cases hxy : x = y
          · exact Or.inl hxy
          · exact Or.inr ⟨h1, hxy, h2⟩

/-- The first-occurrence deduplication has no duplicates. -/
theorem dedupFirstAux_nodup :
    ∀ (l : List Text) (seen : List Text), (dedupFirstAux seen l).Nodup := by
  intro l
  induction l with
  | nil => intro seen; simp [dedupFirstAux]
  | cons y rest ih =>
    intro seen
    rw [dedupFirstAux]
    split
    · exact ih seen
    · refine List.Pairwise.cons ?_ (ih (y :: seen))
      intro b hb
      have := (dedupFirstAux_mem rest (y :: seen) b).mp hb
      intro hyb
      exact this.2 (by simp [hyb])

/-- Resolving a list of ids, each of which some document carries, yields
documents whose parent ids are exactly those ids in order. -/
theorem filterMap_find_parentId (documents : List RagDocument) :
    ∀ ids : List Text, (∀ pid ∈ ids, ∃ d ∈ documents, d.parentId = some pid) →
      (ids.filterMap (fun pid => documents.find? (fun d => d.parentId = some pid))).map
          (fun d => d.parentId)
        = ids.map some := by
  intro ids
  induction ids with
  | nil => simp
  | cons pid rest ih =>
    intro h
    have hsome : (documents.find? (fun d => decide (d.parentId = some pid))).isSome := by
      rw [List.find?_isSome]
      obtain ⟨d, hd, hpd⟩ := h pid (by simp)
      exact ⟨d, hd, by simp [hpd]⟩
    obtain ⟨d, hd⟩ := Option.isSome_iff_exists.mp hsome
    have hpd : d.parentId = some pid := by
      have := List.find?_some hd
      simpa using this
    rw [List.filterMap_cons]
    simp only [hd]
    simp [hpd, ih (fun p hp => h p (by simp [hp]))]

/-- The guideline resolver returns, in first-encounter order, one document per
distinct resolvable referenced parent id; it never reorders by relevance. -/
theorem guideline_resolve_spec (documents : List RagDocument) :
    ∀ (chunks : List RagDocument) (seen : List Text),
      (∀ pid ∈ referencedParentIds chunks, ∃ d ∈ documents, d.parentId = some pid) →
      (guideline_resolve_loop documents seen chunks).map (fun d => d.parentId)
        = (dedupFirstAux seen (referencedParentIds chunks)).map some := by
  intro chunks
  induction chunks with
  | nil => intro seen _; rfl
  | cons c rest ih =>
    intro seen h
    rw [guideline_resolve_loop]
    cases hc : c.parentId with
    | none =>
      have hr : referencedParentIds (c :: rest) = referencedParentIds rest := by
        simp [referencedParentIds, List.filterMap_cons, hc]
      rw [hr] at h
      rw [show referencedParentIds (c :: rest) = referencedParentIds rest from hr]
      exact ih seen h
    | some pid =>
      by_cases hemp : pid = []
      · have hr : referencedParentIds (c :: rest) = referencedParentIds rest := by
          simp [referencedParentIds, List.filterMap_cons, hc, hemp]
        rw [hr] at h
        rw [show referencedParentIds (c :: rest) = referencedParentIds rest from hr]
        dsimp only
        rw [if_pos hemp]
        exact ih seen h
      · have hr : referencedParentIds (c :: rest) = pid :: referencedParentIds rest := by
          simp [referencedParentIds, List.filterMap_cons, hc, hemp]
        rw [hr] at h
        rw [show referencedParentIds (c :: rest) = pid :: referencedParentIds rest from hr]
        dsimp only
        rw [if_neg hemp, dedupFirstAux]
        by_cases hseen : pid ∈ seen
        · rw [if_pos hseen, if_pos hseen]
          exact ih seen (fun p hp => h p (by simp [hp]))
        · rw [if_neg hseen, if_neg hseen]
          have hlook : (guidelineParentLookup documents pid).isSome := by
            rw [guidelineParentLookup, List.find?_isSome]
            obtain ⟨d, hd, hpd⟩ := h pid (by simp)
            exact ⟨d, by simp [hd], by simp [hpd]⟩
          obtain ⟨d, hd⟩ := Option.isSome_iff_exists.mp hlook
          have hpd : d.parentId = some pid := by
            have := List.find?_some (by simpa [guidelineParentLookup] using hd)
            simpa using this
          rw [hd]
          simp only [List.map_cons, hpd]
          rw [ih (pid :: seen) (fun p hp => h p (by simp [hp]))]

/-- C1 (amended): under resolvability of every referenced parent id, the flat
resolver returns each referenced parent exactly once, ordered by descending
relevance count with ties in first-encounter order, while the hierarchical
(guideline) resolver returns each referenced parent exactly once in plain
first-encounter order with no relevance ordering; on the example `[A,A,B,A,C]`
both orders coincide and equal `[A,B,C]` with counts 3, 1, 1. -/
theorem c1_amended_parent_resolvers :
    (∀ (documents chunks : List RagDocument),
      (∀ pid ∈ referencedParentIds chunks, ∃ d ∈ documents, d.parentId = some pid) →
      (flat_get_parent_documents documents chunks).map (fun d => d.parentId)
          = (sortDesc (relevanceCount chunks) (dedupFirst (referencedParentIds chunks))).map some ∧
      (sortDesc (relevanceCount chunks) (dedupFirst (referencedParentIds chunks))).Nodup ∧
      (sortDesc (relevanceCount chunks) (dedupFirst (referencedParentIds chunks))).Pairwise
        (fun a b => relevanceCount chunks b ≤ relevanceCount chunks a) ∧
      (∀ k, (sortDesc (relevanceCount chunks)
              (dedupFirst (referencedParentIds chunks))).filter
              (fun pid => relevanceCount chunks pid == k)
          = (dedupFirst (referencedParentIds chunks)).filter
              (fun pid => relevanceCount chunks pid == k)) ∧
      (∀ pid, pid ∈ sortDesc (relevanceCount chunks) (dedupFirst (referencedParentIds chunks))
          ↔ pid ∈ referencedParentIds chunks) ∧
      (guideline_get_parent_documents documents chunks).map (fun d => d.parentId)
          = (dedupFirst (referencedParentIds chunks)).map some) ∧
    (flat_get_parent_documents c1docsABC c1chunksAABAC).map (fun d => d.parentId)
        = [some "A".toList, some "B".toList, some "C".toList] ∧
    (guideline_get_parent_documents c1docsABC c1chunksAABAC).map (fun d => d.parentId)
        = [some "A".toList, some "B".toList, some "C".toList] ∧
    relevanceCount c1chunksAABAC "A".toList = 3 ∧
    relevanceCount c1chunksAABAC "B".toList = 1 ∧
    relevanceCount c1chunksAABAC "C".toList = 1 := by
  refine ⟨?_, by decide, by decide, by decide, by decide, by decide⟩
  intro documents chunks h
  have hids : ∀ pid ∈ sortDesc (relevanceCount chunks) (dedupFirst (referencedParentIds chunks)),
      ∃ d ∈ documents, d.parentId = some pid := by
    intro pid hp
    have hmem := (sortDesc_perm (relevanceCount chunks) _).mem_iff.mp hp
    have := (dedupFirstAux_mem (referencedParentIds chunks) [] pid).mp hmem
    exact h pid this.1
  refine ⟨?_, ?_, sortDesc_pairwise _ _, fun k => sortDesc_filter _ k _, ?_, ?_⟩
  · rw [flat_get_parent_documents]
    exact filterMap_find_parentId documents _ hids
  · exact ((sortDesc_perm _ _).nodup_iff).mpr (dedupFirstAux_nodup _ [])
  · intro pid
    rw [(sortDesc_perm (relevanceCount chunks) _).mem_iff, dedupFirst,
      dedupFirstAux_mem (referencedParentIds chunks) [] pid]
    simp
  · rw [guideline_get_parent_documents]
    exact guideline_resolve_spec documents chunks [] h

/-- Witness for C1's amended theorem at the example corpus, with the
resolvability hypothesis discharged by computation. -/
theorem c1_witness :
    (flat_get_parent_documents c1docsABC c1chunksAABAC).map (fun d => d.parentId)
        = (sortDesc (relevanceCount c1chunksAABAC)
            (dedupFirst (referencedParentIds c1chunksAABAC))).map some ∧
    (guideline_get_parent_documents c1docsABC c1chunksAABAC).map (fun d => d.parentId)
        = (dedupFirst (referencedParentIds c1chunksAABAC)).map some := by
  have h := c1_amended_parent_resolvers.1 c1docsABC c1chunksAABAC (by decide)
  exact ⟨h.1, h.2.2.2.2.2⟩

/-- Counterexample to C1 as stated: for fragments with parents `[A, B, B]`
the hierarchical resolver returns `[A, B]` although B's relevance count (2)
exceeds A's (1), so its output is not ordered by descending relevance count. -/
theorem c1_counterexample :
    (guideline_get_parent_documents [c1doc "A".toList, c1doc "B".toList] c1chunksABB).map
        (fun d => d.parentId)
      = [some "A".toList, some "B".toList] ∧
    relevanceCount c1chunksABB "A".toList = 1 ∧
    relevanceCount c1chunksABB "B".toList = 2 ∧
    (1 : Nat) < 2 := by
  refine ⟨by decide, by decide, by decide, by decide⟩

/-- Tails of triple-newline-free texts are triple-newline free. -/
theorem noTriple_tail {c : Char} {l : Text} (h : noTripleNewline (c :: l) = true) :
    noTripleNewline l = true := by
  cases l with
  | nil => rfl
  | cons x xs =>
    cases xs with
    | nil => rfl
    | cons y ys =>
      simp only [noTripleNewline, Bool.and_eq_true] at h
      exact h.2

/-- Prepending a non-newline preserves triple-newline freedom. -/
theorem noTriple_cons_of_ne {c : Char} {l : Text} (hc : c ≠ '\n')
    (h : noTripleNewline l = true) : noTripleNewline (c :: l) = true := by
  cases l with
  | nil => rfl
  | cons x xs =>
    cases xs with
    | nil => rfl
    | cons y ys =>
      simp only [noTripleNewline, Bool.and_eq_true] at h ⊢
      exact ⟨by simp [hc], h⟩

/-- Prepending anything before a non-newline head preserves triple-newline
freedom. -/
theorem noTriple_cons2_of_ne {a b : Char} {l : Text} (hb : b ≠ '\n')
    (h : noTripleNewline (b :: l) = true) : noTripleNewline (a :: b :: l) = true := by
  cases l with
  | nil => rfl
  | cons x xs =>
    simp only [noTripleNewline, Bool.and_eq_true] at h ⊢
    exact ⟨by simp [hb], h⟩

/-- At most two newlines followed by a non-newline and clean text is clean. -/
theorem noTriple_breaker {m : Nat} {c : Char} {X : Text} (hm : m ≤ 2) (hc : c ≠ '\n')
    (h : noTripleNewline X = true) :
    noTripleNewline (List.replicate m '\n' ++ c :: X) = true := by
  interval_cases m
  · simpa using noTriple_cons_of_ne hc h
  · simpa using noTriple_cons2_of_ne hc (noTriple_cons_of_ne hc h)
  · have h1 : noTripleNewline ('\n' :: c :: X) = true :=
      noTriple_cons2_of_ne hc (noTriple_cons_of_ne hc h)
    simp only [List.replicate, List.cons_append, List.nil_append, noTripleNewline,
      Bool.and_eq_true]
    exact ⟨by simp [hc], by simpa using h1⟩

/-- Runs of at most two newlines are clean. -/
theorem noTriple_replicate {m : Nat} (hm : m ≤ 2) :
    noTripleNewline (List.replicate m '\n') = true := by
  interval_cases m <;> decide

/-- The newline-collapsing pass leaves no triple newline behind. -/
theorem collapseAux_noTriple : ∀ (s : Text) (k : Nat),
    noTripleNewline (collapseAux k s) = true := by
  intro s
  induction s with
  | nil =>
    intro k
    exact noTriple_replicate (Nat.min_le_right k 2)
  | cons c rest ih =>
    intro k
    rw [collapseAux]
    by_cases hc : c = '\n'
    · rw [if_pos hc]
      exact ih (k + 1)
    · rw [if_neg hc]
      exact noTriple_breaker (Nat.min_le_right k 2) hc (ih 0)

/-- Moving a newline into the pending run. -/
theorem replicate_newline_snoc : ∀ (k : Nat) (s : Text),
    List.replicate k '\n' ++ '\n' :: s = List.replicate (k + 1) '\n' ++ s := by
  intro k
  induction k with
  | zero => intro s; rfl
  | succ n ih =>
    intro s
    simp only [List.replicate, List.cons_append, ih]

/-- Triple-newline freedom passes to the right part of an append. -/
theorem noTriple_append_right : ∀ (A B : Text),
    noTripleNewline (A ++ B) = true → noTripleNewline B = true := by
  intro A B
  induction A with
  | nil => exact id
  | cons a A' ih =>
    intro h
    exact ih (noTriple_tail h)

/-- Triple-newline freedom passes to the left part of an append. -/
theorem noTriple_append_left (B : Text) : ∀ A : Text,
    noTripleNewline (A ++ B) = true → noTripleNewline A = true := by
  intro A
  induction A using noTripleNewline.induct with
  | case1 => intro _; rfl
  | case2 a => intro _; rfl
  | case3 a b => intro _; rfl
  | case4 a b c rest ih =>
    intro h
    simp only [List.cons_append, noTripleNewline, Bool.and_eq_true] at h ⊢
    exact ⟨h.1, ih (by simpa using h.2)⟩

/-- Triple-newline freedom is preserved by `take`. -/
theorem noTriple_take {s : Text} (n : Nat) (h : noTripleNewline s = true) :
    noTripleNewline (s.take n) = true := by
  have := noTriple_append_left (s.drop n) (s.take n)
  rw [List.take_append_drop] at this
  exact this h

/-- The collapsing pass is the identity on texts already free of triple
newlines (with `k` pending newlines prepended). -/
theorem collapseAux_eq_self : ∀ (s : Text) (k : Nat), k ≤ 2 →
    noTripleNewline (List.replicate k '\n' ++ s) = true →
    collapseAux k s = List.replicate k '\n' ++ s := by
  intro s
  induction s with
  | nil =>
    intro k hk _
    simp [collapseAux, Nat.min_eq_left hk]
  | cons c rest ih =>
    intro k hk h
    rw [collapseAux]
    by_cases hc : c = '\n'
    · rw [if_pos hc]
      subst hc
      by_cases hk2 : k ≤ 1
      · rw [replicate_newline_snoc] at h
        rw [ih (k + 1) (by omega) h, replicate_newline_snoc]
      · have hk' : k = 2 := by omega
        subst hk'
        rw [replicate_newline_snoc] at h
        simp [List.replicate, noTripleNewline] at h
    · rw [if_neg hc]
      have hrest : noTripleNewline rest = true :=
        noTriple_tail (noTriple_append_right (List.replicate k '\n') (c :: rest) h)
      rw [Nat.min_eq_left hk, ih 0 (by omega) (by simpa using hrest)]
      rfl

/-- `dropWhile` is a `drop`. -/
theorem dropWhile_eq_drop (p : Char → Bool) : ∀ s : Text, ∃ n, s.dropWhile p = s.drop n := by
  intro s
  induction s with
  | nil => exact ⟨0, rfl⟩
  | cons c rest ih =>
    by_cases hc : p c
    · obtain ⟨n, hn⟩ := ih
      exact ⟨n + 1, by simpa [List.dropWhile_cons, hc] using hn⟩
    · exact ⟨0, by simp [List.dropWhile_cons, hc]⟩

/-- `rstripWS` is a `take`. -/
theorem rstripWS_eq_take : ∀ s : Text, ∃ n, rstripWS s = s.take n := by
  intro s
  induction s with
  | nil => exact ⟨0, rfl⟩
  | cons c rest ih =>
    rw [rstripWS]
    cases hr : rstripWS rest with
    | nil =>
      by_cases hc : pyIsSpace c
      · exact ⟨0, by simp [hc]⟩
      · exact ⟨1, by simp [hc]⟩
    | cons r rs =>
      obtain ⟨n, hn⟩ := ih
      rw [hr] at hn
      exact ⟨n + 1, by simp [List.take_succ_cons, ← hn]⟩

/-- Stripping preserves triple-newline freedom. -/
theorem noTriple_pyStrip {s : Text} (h : noTripleNewline s = true) :
    noTripleNewline (pyStrip s) = true := by
  obtain ⟨n, hn⟩ := dropWhile_eq_drop pyIsSpace s
  obtain ⟨m, hm⟩ := rstripWS_eq_take (lstripWS s)
  have hdrop : noTripleNewline (lstripWS s) = true := by
    rw [lstripWS, hn]
    have := noTriple_append_right (s.take n) (s.drop n)
    rw [List.take_append_drop] at this
    exact this h
  rw [pyStrip, hm]
  exact noTriple_take m hdrop

/-- `dropWhile` twice is `dropWhile` once. -/
theorem dropWhile_dropWhile (p : Char → Bool) : ∀ s : Text,
    (s.dropWhile p).dropWhile p = s.dropWhile p := by
  intro s
  induction s with
  | nil => rfl
  | cons c rest ih =>
    by_cases hc : p c
    · simp [List.dropWhile_cons, hc, ih]
    · simp [List.dropWhile_cons, hc]

/-- The left strip ends at a non-whitespace head, if anything is left. -/
theorem lstripWS_head : ∀ s : Text,
    lstripWS s = [] ∨ ∃ c t, lstripWS s = c :: t ∧ pyIsSpace c = false := by
  intro s
  induction s with
  | nil => exact Or.inl rfl
  | cons c rest ih =>
    by_cases hc : pyIsSpace c
    · rw [lstripWS, List.dropWhile_cons, if_pos hc]
      exact ih
    · exact Or.inr ⟨c, rest, by simp [lstripWS, List.dropWhile_cons, hc],
        by simpa using hc⟩

/-- `rstripWS` keeps the head character, if anything is left. -/
theorem rstripWS_head (c : Char) (rest : Text) :
    rstripWS (c :: rest) = [] ∨ ∃ t, rstripWS (c :: rest) = c :: t := by
  rw [rstripWS]
  cases rstripWS rest with
  | nil =>
    by_cases hc : pyIsSpace c
    · exact Or.inl (by simp [hc])
    · exact Or.inr ⟨[], by simp [hc]⟩
  | cons r rs => exact Or.inr ⟨r :: rs, rfl⟩

/-- The right strip is idempotent. -/
theorem rstripWS_rstripWS : ∀ s : Text, rstripWS (rstripWS s) = rstripWS s := by
  intro s
  induction s with
  | nil => rfl
  | cons c rest ih =>
    cases hr : rstripWS rest with
    | nil =>
      by_cases hc : pyIsSpace c
      · rw [show rstripWS (c :: rest) = [] from by rw [rstripWS, hr]; simp [hc]]
        rfl
      · rw [show rstripWS (c :: rest) = [c] from by rw [rstripWS, hr]; simp [hc]]
        rw [show rstripWS [c] = [c] from by rw [rstripWS]; simp [rstripWS, hc]]
    | cons r rs =>
      rw [hr] at ih
      rw [show rstripWS (c :: rest) = c :: r :: rs from by rw [rstripWS, hr]]
      rw [rstripWS, ih]

/-- Python `strip` is idempotent. -/
theorem pyStrip_pyStrip (s : Text) : pyStrip (pyStrip s) = pyStrip s := by
  rcases lstripWS_head s with hu | ⟨c, t, hu, hc⟩
  · have hps : pyStrip s = [] := by rw [pyStrip, hu]; rfl
    rw [hps]
    rfl
  · have hps : pyStrip s = rstripWS (c :: t) := by rw [pyStrip, hu]
    rcases rstripWS_head c t with hr | ⟨t', hr⟩
    · rw [hps, hr]
      rfl
    · rw [hps, hr, pyStrip, show lstripWS (c :: t') = c :: t' from by
        simp [lstripWS, List.dropWhile_cons, hc]]
      rw [← hr, rstripWS_rstripWS]

/-- Characters of the collapsed text come from the input or are newlines. -/
theorem mem_collapseAux : ∀ (s : Text) (k : Nat) (x : Char),
    x ∈ collapseAux k s → x = '\n' ∨ x ∈ s := by
  intro s
  induction s with
  | nil =>
    intro k x hx
    simp only [collapseAux] at hx
    exact Or.inl (List.eq_of_mem_replicate hx)
  | cons c rest ih =>
    intro k x hx
    rw [collapseAux] at hx
    by_cases hc : c = '\n'
    · rw [if_pos hc] at hx
      rcases ih (k + 1) x hx with h | h
      · exact Or.inl h
      · exact Or.inr (by simp [h])
    · rw [if_neg hc] at hx
      rcases List.mem_append.mp hx with h | h
      · exact Or.inl (List.eq_of_mem_replicate h)
      · rcases List.mem_cons.mp h with rfl | h'
        · exact Or.inr (by simp)
        · rcases ih 0 x h' with h2 | h2
          · exact Or.inl h2
          · exact Or.inr (by simp [h2])

/-- Characters of the stripped text come from the input. -/
theorem mem_pyStrip {s : Text} {x : Char} (hx : x ∈ pyStrip s) : x ∈ s := by
  obtain ⟨n, hn⟩ := dropWhile_eq_drop pyIsSpace s
  obtain ⟨m, hm⟩ := rstripWS_eq_take (lstripWS s)
  rw [pyStrip, hm] at hx
  have h1 : x ∈ lstripWS s := List.take_subset m _ hx
  rw [lstripWS, hn] at h1
  exact List.drop_subset n s h1

/-- Without a `#` the reference pattern never matches. -/
theorem refMatchAt_false (words : List Text) {c : Char} (rest : Text) (hc : c ≠ '#') :
    refMatchAt words (c :: rest) = false := by
  simp [refMatchAt, hc]

/-- Without a `#` the reference truncation is the identity. -/
theorem truncRefsAux_id (words : List Text) : ∀ (s : Text), '#' ∉ s →
    ∀ b : Bool, truncRefsAux words b s = s := by
  intro s
  induction s with
  | nil => intro _ _; rfl
  | cons c rest ih =>
    intro h b
    simp only [List.mem_cons, not_or] at h
    rw [truncRefsAux, refMatchAt_false words rest (fun hc => h.1 hc.symm)]
    simp only [Bool.and_false, Bool.false_eq_true, if_false]
    rw [ih (fun hm => h.2 hm) (c = '\n')]

/-- Without a `<` the tag removal is the identity. -/
theorem removeTagsAux_id : ∀ s : Text, '<' ∉ s → removeTagsAux none s = s := by
  intro s
  induction s with
  | nil => intro _; rfl
  | cons c rest ih =>
    intro h
    simp only [List.mem_cons, not_or] at h
    rw [removeTagsAux, if_neg (fun hc => h.1 hc.symm), ih (fun hm => h.2 hm)]

/-- Without a `!` the image removal is the identity. -/
theorem removeImagesAux_id (keep : Bool) : ∀ s : Text, '!' ∉ s →
    removeImagesAux keep none s = s := by
  intro s
  induction s with
  | nil => intro _; rfl
  | cons c rest ih =>
    intro h
    simp only [List.mem_cons, not_or] at h
    have hstep : removeImagesAux keep none (c :: rest) = c :: removeImagesAux keep none rest := by
      rw [removeImagesAux.eq_def]
      dsimp only
      rw [if_neg (fun hc => h.1 hc.symm)]
    rw [hstep, ih (fun hm => h.2 hm)]

/-- Without a `<` the break-tag substitution is the identity. -/
theorem brSubAux_id : ∀ s : Text, '<' ∉ s → brSubAux none s = s := by
  intro s
  induction s with
  | nil => intro _; rfl
  | cons c rest ih =>
    intro h
    simp only [List.mem_cons, not_or] at h
    have hstep : brSubAux none (c :: rest) = c :: brSubAux none rest := by
      rw [brSubAux.eq_def]
      dsimp only
      rw [if_neg (fun hc => h.1 hc.symm)]
    rw [hstep, ih (fun hm => h.2 hm)]

/-- On marker-free text both cleaners reduce to collapse-then-strip. -/
theorem clean_eq_strip_collapse (t : Text) (h1 : '#' ∉ t) (h2 : '<' ∉ t) (h3 : '!' ∉ t) :
    clean_academic_markdown t = pyStrip (collapseAux 0 t) ∧
    clean_guideline_markdown t = pyStrip (collapseAux 0 t) := by
  by_cases ht : t = []
  · subst ht
    exact ⟨rfl, rfl⟩
  · rw [clean_academic_markdown, clean_guideline_markdown, if_neg ht, if_neg ht,
      truncate_references, truncate_references, truncRefsAux_id refWordsAcademic t h1,
      truncRefsAux_id refWordsGuideline t h1, brSubAux_id t h2, removeTagsAux_id t h2,
      removeImagesAux_id false t h3, removeImagesAux_id true t h3]
    exact ⟨rfl, rfl⟩

/-- C6 (amended): both content normalizers are total with empty input mapped
to empty output, and both are idempotent on text free of the marker
characters `#`, `<` and `!`; full idempotence fails, because removing markup
can expose a reference heading that only a second pass truncates. -/
theorem c6_amended_normalizer_idempotence :
    clean_academic_markdown [] = [] ∧
    clean_guideline_markdown [] = [] ∧
    (∀ t : Text, '#' ∉ t → '<' ∉ t → '!' ∉ t →
      clean_academic_markdown (clean_academic_markdown t) = clean_academic_markdown t ∧
      clean_guideline_markdown (clean_guideline_markdown t) = clean_guideline_markdown t) := by
  refine ⟨rfl, rfl, ?_⟩
  intro t h1 h2 h3
  obtain ⟨ha, hg⟩ := clean_eq_strip_collapse t h1 h2 h3
  have hu1 : '#' ∉ pyStrip (collapseAux 0 t) := by
    intro hx
    rcases mem_collapseAux t 0 '#' (mem_pyStrip hx) with h | h
    · exact absurd h (by decide)
    · exact h1 h
  have hu2 : '<' ∉ pyStrip (collapseAux 0 t) := by
    intro hx
    rcases mem_collapseAux t 0 '<' (mem_pyStrip hx) with h | h
    · exact absurd h (by decide)
    · exact h2 h
  have hu3 : '!' ∉ pyStrip (collapseAux 0 t) := by
    intro hx
    rcases mem_collapseAux t 0 '!' (mem_pyStrip hx) with h | h
    · exact absurd h (by decide)
    · exact h3 h
  obtain ⟨ha2, hg2⟩ := clean_eq_strip_collapse (pyStrip (collapseAux 0 t)) hu1 hu2 hu3
  have hcoll : collapseAux 0 (pyStrip (collapseAux 0 t)) = pyStrip (collapseAux 0 t) := by
    have := collapseAux_eq_self (pyStrip (collapseAux 0 t)) 0 (by omega)
      (by simpa using noTriple_pyStrip (collapseAux_noTriple t 0))
    simpa using this
  constructor
  · rw [ha, ha2, hcoll, pyStrip_pyStrip]
  · rw [hg, hg2, hcoll, pyStrip_pyStrip]

/-- Witness for C6's amended theorem at a concrete marker-free text. -/
theorem c6_witness :
    clean_academic_markdown (clean_academic_markdown "  a\n\n\n\nb ".toList)
        = clean_academic_markdown "  a\n\n\n\nb ".toList ∧
    clean_guideline_markdown (clean_guideline_markdown "  a\n\n\n\nb ".toList)
        = clean_guideline_markdown "  a\n\n\n\nb ".toList := by
  exact (c6_amended_normalizer_idempotence.2.2 "  a\n\n\n\nb ".toList
    (by decide) (by decide) (by decide))

/-- Counterexample to C6 as stated: on `"#<b> References\nbody"` the first
pass only removes the tag, exposing the reference heading, and the second
pass truncates everything; so neither cleaner is idempotent. -/
theorem c6_counterexample :
    clean_academic_markdown (clean_academic_markdown c6text)
        ≠ clean_academic_markdown c6text ∧
    clean_guideline_markdown (clean_guideline_markdown c6text)
        ≠ clean_guideline_markdown c6text := by
  constructor
  · decide
  · decide

/-- `splitLines` never returns the empty list. -/
theorem splitLines_ne_nil : ∀ s : Text, splitLines s ≠ [] := by
  intro s
  cases s with
  | nil => simp [splitLines]
  | cons c rest =>
    rw [splitLines]
    by_cases hc : c = '\n'
    · simp [hc]
    · rw [if_neg hc]
      cases splitLines rest <;> simp

/-- Joining the split lines restores the text. -/
theorem joinLines_splitLines : ∀ s : Text, joinLines (splitLines s) = s := by
  intro s
  induction s with
  | nil => rfl
  | cons c rest ih =>
    rw [splitLines]
    by_cases hc : c = '\n'
    · rw [if_pos hc]
      cases hr : splitLines rest with
      | nil => exact absurd hr (splitLines_ne_nil rest)
      | cons l ls =>
        rw [hr] at ih
        rw [joinLines, List.nil_append, ih, hc]
    · rw [if_neg hc]
      cases hr : splitLines rest with
      | nil => exact absurd hr (splitLines_ne_nil rest)
      | cons l ls =>
        rw [hr] at ih
        dsimp only
        cases ls with
        | nil =>
          rw [joinLines] at ih ⊢
          rw [ih]
        | cons l2 ls2 =>
          rw [joinLines] at ih ⊢
          rw [List.cons_append, ih]

/-- With no heading line left, the grouping keeps everything in the current
fragment. -/
theorem groupLinesAux_no_heading : ∀ (ls : List Text) (cur : List Text),
    (∀ line ∈ ls, isHeadingLine line = false) → groupLinesAux cur ls = [cur ++ ls] := by
  intro ls
  induction ls with
  | nil => intro cur _; simp [groupLinesAux]
  | cons line rest ih =>
    intro cur h
    rw [groupLinesAux, if_neg (by simp [h line (by simp)])]
    rw [ih (cur ++ [line]) (fun l hl => h l (by simp [hl]))]
    simp

/-- C7: a document whose normalized text contains no detectable heading line
is chunked into exactly one fragment equal to the whole document, both by the
splitter itself and through the flat chunker. -/
theorem c7_no_heading_single_fragment :
    (∀ text : Text, (∀ line ∈ splitLines text, isHeadingLine line = false) →
      markdown_header_split text = [text]) ∧
    (∀ (idGen : Nat → Text) (doc : ParentDoc),
      (∀ line ∈ splitLines doc.pageContent, isHeadingLine line = false) →
      (flat_chunk_documents idGen (fun _ => false) [doc]).1 =
        [{ pageContent := doc.pageContent, chunk_id := some (idGen 0),
           parent_id := doc.parent_id, doc_type := "child".toList }]) := by
  have hsplit : ∀ text : Text, (∀ line ∈ splitLines text, isHeadingLine line = false) →
      markdown_header_split text = [text] := by
    intro text h
    rw [markdown_header_split]
    cases hr : splitLines text with
    | nil => exact absurd hr (splitLines_ne_nil text)
    | cons l ls =>
      rw [hr] at h
      dsimp only
      rw [groupLinesAux_no_heading ls [l] (fun line hl => h line (by simp [hl]))]
      have hj := joinLines_splitLines text
      rw [hr] at hj
      simpa using hj
  refine ⟨hsplit, ?_⟩
  intro idGen doc h
  rw [flat_chunk_documents, flat_markdown_header_split]
  rw [if_neg (by simp)]
  rw [hsplit doc.pageContent h]
  rfl

/-- Witness for C7 at a concrete heading-free document. -/
theorem c7_witness :
    markdown_header_split "plain text\nno markers".toList =
      ["plain text\nno markers".toList] ∧
    (flat_chunk_documents (fun n => List.replicate n 'i') (fun _ => false)
        [{ pageContent := "plain".toList, parent_id := "P".toList }]).1 =
      [{ pageContent := "plain".toList, chunk_id := some [],
         parent_id := "P".toList, doc_type := "child".toList }] := by
  constructor
  · exact c7_no_heading_single_fragment.1 "plain text\nno markers".toList (by decide)
  · exact c7_no_heading_single_fragment.2 (fun n => List.replicate n 'i')
      { pageContent := "plain".toList, parent_id := "P".toList } (by decide)

/-- The fragments of one successful split: as many as there are pieces, all
children of the given parent, with ids at successive counters recorded in
the entry list. -/
theorem splitDocFrags_spec (idGen : Nat → Text) (pid : Text) :
    ∀ (ts : List Text) (ctr : Nat),
      (splitDocFrags idGen pid ctr ts).length = ts.length ∧
      fragEntries (splitDocFrags idGen pid ctr ts)
        = (List.range' ctr ts.length).map (fun n => (idGen n, pid)) ∧
      ∀ f ∈ splitDocFrags idGen pid ctr ts,
        f.doc_type = "child".toList ∧ f.parent_id = pid ∧
        ∃ n, ctr ≤ n ∧ n < ctr + ts.length ∧ f.chunk_id = some (idGen n) := by
  intro ts
  induction ts with
  | nil => intro ctr; refine ⟨rfl, rfl, by simp [splitDocFrags]⟩
  | cons t ts' ih =>
    intro ctr
    obtain ⟨ihlen, ihent, ihmem⟩ := ih (ctr + 1)
    refine ⟨by simp [splitDocFrags, ihlen], ?_, ?_⟩
    · have hcons : fragEntries (splitDocFrags idGen pid ctr (t :: ts'))
          = (idGen ctr, pid) :: fragEntries (splitDocFrags idGen pid (ctr + 1) ts') := rfl
      rw [hcons, ihent, List.length_cons, List.range'_succ ctr ts'.length 1, List.map_cons]
    · intro f hf
      rw [splitDocFrags] at hf
      rcases List.mem_cons.mp hf with rfl | hf'
      · exact ⟨rfl, rfl, ctr, le_refl ctr, by simp, rfl⟩
      · obtain ⟨h1, h2, n, hn1, hn2, hn3⟩ := ihmem f hf'
        exact ⟨h1, h2, n, by omega, by simp at hn2 ⊢; omega, hn3⟩

/-- Invariant of the flat splitting loop: the map keys are exactly the fresh
ids issued between the starting and final counters, every child fragment's id
is one of them and its pair is in the map, and every non-child fragment is a
fallback parent chunk with no id. -/
theorem flat_split_spec (idGen : Nat → Text) (fails : ParentDoc → Bool) :
    ∀ (docs : List ParentDoc) (ctr : Nat),
      ctr ≤ (flat_markdown_header_split idGen fails docs ctr).2.2 ∧
      ((flat_markdown_header_split idGen fails docs ctr).2.1.map Prod.fst
        = (List.range' ctr ((flat_markdown_header_split idGen fails docs ctr).2.2 - ctr)).map
            idGen) ∧
      ∀ f ∈ (flat_markdown_header_split idGen fails docs ctr).1,
        (f.doc_type = "child".toList ∧ ∃ n, ctr ≤ n ∧
          n < (flat_markdown_header_split idGen fails docs ctr).2.2 ∧
          f.chunk_id = some (idGen n) ∧
          (idGen n, f.parent_id) ∈ (flat_markdown_header_split idGen fails docs ctr).2.1) ∨
        (f.doc_type = "parent".toList ∧ f.chunk_id = none) := by
  intro docs
  induction docs with
  | nil =>
    intro ctr
    refine ⟨le_refl ctr, by simp [flat_markdown_header_split], ?_⟩
    intro f hf
    simp [flat_markdown_header_split] at hf
  | cons doc rest ih =>
    intro ctr
    rw [flat_markdown_header_split]
    by_cases hfail : fails doc
    · rw [if_pos hfail]
      obtain ⟨ih1, ih2, ih3⟩ := ih ctr
      refine ⟨ih1, ih2, ?_⟩
      intro f hf
      rcases List.mem_cons.mp hf with rfl | hf'
      · exact Or.inr ⟨rfl, rfl⟩
      · exact ih3 f hf'
    · rw [if_neg hfail]
      dsimp only
      obtain ⟨slen, sent, smem⟩ :=
        splitDocFrags_spec idGen doc.parent_id (markdown_header_split doc.pageContent) ctr
      rw [slen]
      set L := (markdown_header_split doc.pageContent).length with hL
      obtain ⟨ih1, ih2, ih3⟩ := ih (ctr + L)
      refine ⟨by omega, ?_, ?_⟩
      · rw [List.map_append, sent, ih2]
        rw [show (List.range' ctr
              ((flat_markdown_header_split idGen fails rest (ctr + L)).2.2 - ctr)).map idGen
            = ((List.range' ctr L ++
               List.range' (ctr + L)
                 ((flat_markdown_header_split idGen fails rest (ctr + L)).2.2 - (ctr + L))).map
                 idGen) from by
          congr 1
          have hap := List.range'_append ctr L
            ((flat_markdown_header_split idGen fails rest (ctr + L)).2.2 - (ctr + L)) 1
          simp only [Nat.one_mul] at hap
          rw [hap]
          congr 1
          omega]
        rw [List.map_append, List.map_map]
        rfl
      · intro f hf
        rcases List.mem_append.mp hf with hf' | hf'
        · obtain ⟨h1, h2, n, hn1, hn2, hn3⟩ := smem f hf'
          refine Or.inl ⟨h1, n, hn1, by omega, hn3, ?_⟩
          rw [List.mem_append]
          left
          rw [sent, h2]
          have hnr : n ∈ List.range' ctr L := by
            rw [List.mem_range'_1]
            omega
          exact List.mem_map.mpr ⟨n, hnr, rfl⟩
        · rcases ih3 f hf' with ⟨h1, n, hn1, hn2, hn3, hn4⟩ | h
          · exact Or.inl ⟨h1, n, by omega, hn2, hn3, by rw [List.mem_append]; right; exact hn4⟩
          · exact Or.inr h

/-- In an association list with distinct keys, a key determines its value. -/
theorem assoc_key_unique : ∀ (l : List (Text × Text)) (a b c : Text),
    (l.map Prod.fst).Nodup → (a, b) ∈ l → (a, c) ∈ l → b = c := by
  intro l
  induction l with
  | nil => intro a b c _ hb _; simp at hb
  | cons x rest ih =>
    intro a b c hnd hb hc
    rw [List.map_cons] at hnd
    have hx := List.pairwise_cons.mp hnd
    rcases List.mem_cons.mp hb with rfl | hb'
    · rcases List.mem_cons.mp hc with heq | hc'
      · exact (congrArg Prod.snd heq).symm
      · have ha : a ∈ rest.map Prod.fst := List.mem_map.mpr ⟨(a, c), hc', rfl⟩
        exact absurd rfl (hx.1 a ha)
    · rcases List.mem_cons.mp hc with rfl | hc'
      · have ha : a ∈ rest.map Prod.fst := List.mem_map.mpr ⟨(a, b), hb', rfl⟩
        exact absurd rfl (hx.1 a ha)
      · exact ih a b c hx.2 hb' hc'

/-- The id-assignment pass either passes a fragment through (when it already
has an id) or fills in a fresh id on a fragment that had none. -/
theorem assign_missing_ids_mem (idGen : Nat → Text) :
    ∀ (fs : List Fragment) (ctr : Nat) (g : Fragment),
      g ∈ assign_missing_ids idGen ctr fs →
      (g ∈ fs ∧ g.chunk_id.isSome = true) ∨
      ∃ f ∈ fs, f.chunk_id = none ∧ ∃ m, g = { f with chunk_id := some (idGen m) } := by
  intro fs
  induction fs with
  | nil => intro ctr g h; simp [assign_missing_ids] at h
  | cons f fs' ih =>
    intro ctr g h
    rw [assign_missing_ids] at h
    cases hc : f.chunk_id with
    | some cid =>
      rw [hc] at h
      rcases List.mem_cons.mp h with rfl | h'
      · exact Or.inl ⟨by simp, by simp [hc]⟩
      · rcases ih ctr g h' with ⟨h1, h2⟩ | ⟨f', h1, h2, m, h3⟩
        · exact Or.inl ⟨by simp [h1], h2⟩
        · exact Or.inr ⟨f', by simp [h1], h2, m, h3⟩
    | none =>
      rw [hc] at h
      rcases List.mem_cons.mp h with rfl | h'
      · exact Or.inr ⟨f, by simp, hc, ctr, rfl⟩
      · rcases ih (ctr + 1) g h' with ⟨h1, h2⟩ | ⟨f', h1, h2, m, h3⟩
        · exact Or.inl ⟨by simp [h1], h2⟩
        · exact Or.inr ⟨f', by simp [h1], h2, m, h3⟩

/-- With the failure oracle constantly false every produced fragment is a
child. -/
theorem flat_split_all_child (idGen : Nat → Text) :
    ∀ (docs : List ParentDoc) (ctr : Nat),
      ∀ f ∈ (flat_markdown_header_split idGen (fun _ => false) docs ctr).1,
        f.doc_type = "child".toList := by
  intro docs
  induction docs with
  | nil => intro ctr f hf; simp [flat_markdown_header_split] at hf
  | cons doc rest ih =>
    intro ctr f hf
    rw [flat_markdown_header_split, if_neg (by simp)] at hf
    dsimp only at hf
    rcases List.mem_append.mp hf with hf' | hf'
    · exact ((splitDocFrags_spec idGen doc.parent_id _ ctr).2.2 f hf').1
    · exact ih _ f hf'

/-- C8 (amended): with an injective fresh-id supply, the parent-child map of
the flat chunker has distinct keys and is consistent for every fragment
produced through the successful split path (`doc_type` `child`): the map
contains the fragment's id and maps it only to the fragment's own parent id;
the guideline chunker, which has no failure path, satisfies this for every
fragment.  The flat caught-failure fallback fragment, however, receives its
fresh id only in `chunk_documents` and is never recorded in the map (see the
counterexample). -/
theorem c8_amended_parent_child_index_consistency :
    (∀ (idGen : Nat → Text) (fails : ParentDoc → Bool) (docs : List ParentDoc),
      Function.Injective idGen →
      ((flat_chunk_documents idGen fails docs).2.map Prod.fst).Nodup ∧
      ∀ f ∈ (flat_chunk_documents idGen fails docs).1, f.doc_type = "child".toList →
        ∃ cid, f.chunk_id = some cid ∧
          (cid, f.parent_id) ∈ (flat_chunk_documents idGen fails docs).2 ∧
          ∀ p, (cid, p) ∈ (flat_chunk_documents idGen fails docs).2 → p = f.parent_id) ∧
    (∀ (idGen : Nat → Text) (docs : List ParentDoc),
      Function.Injective idGen →
      ∀ f ∈ (guideline_chunk_documents idGen docs).1,
        ∃ cid, f.chunk_id = some cid ∧
          (cid, f.parent_id) ∈ (guideline_chunk_documents idGen docs).2 ∧
          ∀ p, (cid, p) ∈ (guideline_chunk_documents idGen docs).2 → p = f.parent_id) := by
  have hmain : ∀ (idGen : Nat → Text) (fails : ParentDoc → Bool) (docs : List ParentDoc),
      Function.Injective idGen →
      (((flat_markdown_header_split idGen fails docs 0).2.1.map Prod.fst).Nodup ∧
      ∀ f ∈ (flat_markdown_header_split idGen fails docs 0).1,
        f.doc_type = "child".toList →
        ∃ cid, f.chunk_id = some cid ∧
          (cid, f.parent_id) ∈ (flat_markdown_header_split idGen fails docs 0).2.1 ∧
          ∀ p, (cid, p) ∈ (flat_markdown_header_split idGen fails docs 0).2.1 →
            p = f.parent_id) := by
    intro idGen fails docs hinj
    obtain ⟨h1, h2, h3⟩ := flat_split_spec idGen fails docs 0
    have hnodup : ((flat_markdown_header_split idGen fails docs 0).2.1.map Prod.fst).Nodup := by
      rw [h2]
      exact (List.nodup_range' 0 _ 1 (by omega)).map hinj
    refine ⟨hnodup, ?_⟩
    intro f hf hchild
    rcases h3 f hf with ⟨-, n, -, -, hn3, hn4⟩ | ⟨hp, -⟩
    · refine ⟨idGen n, hn3, hn4, ?_⟩
      intro p hp
      exact (assoc_key_unique _ _ _ _ hnodup hp hn4).symm ▸ rfl
    · rw [hchild] at hp
      exact absurd hp (by decide)
  constructor
  · intro idGen fails docs hinj
    obtain ⟨hnodup, hcons⟩ := hmain idGen fails docs hinj
    refine ⟨hnodup, ?_⟩
    intro f hf hchild
    rcases assign_missing_ids_mem idGen _ _ f hf with ⟨hmem, -⟩ | ⟨f', hmem, hnone, m, rfl⟩
    · exact hcons f hmem hchild
    · obtain ⟨-, n, -, -, hn3, -⟩ | ⟨hpt, -⟩ :=
        (flat_split_spec idGen fails docs 0).2.2 f' hmem
      · rw [hnone] at hn3
        exact absurd hn3 (by simp)
      · have hcc : f'.doc_type = "child".toList := hchild
        rw [hpt] at hcc
        exact absurd hcc (by decide)
  · intro idGen docs hinj
    obtain ⟨-, hcons⟩ := hmain idGen (fun _ => false) docs hinj
    intro f hf
    exact hcons f hf (flat_split_all_child idGen docs 0 f hf)

/-- Witness for C8's amended theorem: a concrete injective supply and corpus. -/
theorem c8_witness :
    ((flat_chunk_documents (fun n => List.replicate n 'i') (fun _ => false)
        [{ pageContent := "plain".toList, parent_id := "P".toList }]).2.map Prod.fst).Nodup ∧
    ∀ f ∈ (guideline_chunk_documents (fun n => List.replicate n 'i')
        [{ pageContent := "plain".toList, parent_id := "P".toList }]).1,
      ∃ cid, f.chunk_id = some cid ∧
        (cid, f.parent_id) ∈ (guideline_chunk_documents (fun n => List.replicate n 'i')
          [{ pageContent := "plain".toList, parent_id := "P".toList }]).2 ∧
        ∀ p, (cid, p) ∈ (guideline_chunk_documents (fun n => List.replicate n 'i')
          [{ pageContent := "plain".toList, parent_id := "P".toList }]).2 →
          p = f.parent_id := by
  have hinj : Function.Injective (fun n : Nat => List.replicate n 'i') := by
    intro a b h
    simpa using congrArg List.length h
  exact ⟨(c8_amended_parent_child_index_consistency.1 (fun n => List.replicate n 'i')
      (fun _ => false) [{ pageContent := "plain".toList, parent_id := "P".toList }] hinj).1,
    c8_amended_parent_child_index_consistency.2 (fun n => List.replicate n 'i')
      [{ pageContent := "plain".toList, parent_id := "P".toList }] hinj⟩

/-- Counterexample to C8 as stated: a document on which the split raises is
degraded to the whole-document fallback chunk; `chunk_documents` then assigns
it the fresh id `id0`, but the parent-child map stays empty, so the map does
not contain this produced fragment's child identifier. -/
theorem c8_counterexample :
    (flat_chunk_documents (fun n => ("id" ++ Nat.repr n).toList) (fun _ => true)
        [{ pageContent := "hello".toList, parent_id := "P".toList }]).1
      = [{ pageContent := "hello".toList, chunk_id := some "id0".toList,
           parent_id := "P".toList, doc_type := "parent".toList }] ∧
    (flat_chunk_documents (fun n => ("id" ++ Nat.repr n).toList) (fun _ => true)
        [{ pageContent := "hello".toList, parent_id := "P".toList }]).2 = [] := by
  constructor
  · decide
  · decide

end TreatmentRag
